import Mathlib

/-!
# wol-tool: device registry, magic packet, reachability poll and persistence

A shallow embedding of `main.go`.  Go strings and byte slices are lists of
byte values; the operating system (clock, network, ping command, file
system) enters every operation as an explicit argument.

The source holds devices by pointer (`[]*Device`).  Every pointer that the
program puts into the sequence is freshly allocated (a handler-local variable
on `Add`, `json.Unmarshal` on load), so the sequence is modelled as a list of
device values; a mutation through a pointer is the replacement of the value at
that position.  The lock `mu` serialises the operations and has no state of
its own in a sequential model.

The functions of the Go standard library that decide what the program does
are embedded as well: `net.ParseMAC`, `utf8.DecodeRune` and `utf8.EncodeRune`,
and, from `encoding/json`, the string encoder, the indented encoding of a
`Store`, the scanner and the decoder into a `Store` and into a `Device`, and
from `time` the layout of `last_seen`.  The two request handlers that change
the store are embedded with their effect on the store and the file system.
-/

namespace WolTool

/-- A Go `string` or `[]byte`: the sequence of its bytes. -/
abbrev GoString := List Nat

/-- The bytes of an ASCII string literal of the source. -/
def lit (s : String) : GoString := s.data.map Char.toNat

/-! ## Data structures -/

/-- The `Device` struct. -/
structure Device where
  ID : GoString
  Name : GoString
  MAC : GoString
  IP : GoString
  Online : Bool
  LastSeen : GoString
deriving DecidableEq, Repr

/-- The `Store` struct; `mu` carries no data. -/
structure Store where
  Devices : List Device
  path : GoString
deriving DecidableEq, Repr

/-! ## Registry operations -/

/-- The loop of `strconv` that writes a non-negative integer in base 10,
least significant digit first, in front of `acc`. -/
def decimalDigits : Nat → Nat → List Nat → List Nat
  | 0, _, acc => acc
  | fuel + 1, n, acc =>
    let acc1 := (48 + n % 10) :: acc
    if n / 10 = 0 then acc1 else decimalDigits fuel (n / 10) acc1

/-- Decimal text of a natural number. -/
def formatNat (n : Nat) : GoString := decimalDigits (n + 1) n []

/-- The text `fmt.Sprintf("%d", n)` for an integer `n`. -/
def sprintfD : Int → GoString
  | Int.ofNat n => formatNat n
  | Int.negSucc n => 45 :: formatNat (n + 1)

/-- The method `Store.Add`; `now` is the value `time.Now().UnixNano()` returns inside the
call.  The second component is the device as the caller sees it afterwards. -/
def Store.Add (s : Store) (now : Int) (d : Device) : Store × Device :=
  let d1 := { d with ID := sprintfD now }
  ({ s with Devices := s.Devices ++ [d1] }, d1)

/-- The `range` loop of `Store.Delete` at index `i`, with `rest` the devices
from `i` on and `all` the whole sequence. -/
def Store.deleteLoop (all : List Device) (id : GoString) : Nat → List Device → Bool × List Device
  | _, [] => (false, all)
  | i, d :: rest =>
    if d.ID = id then (true, all.take i ++ all.drop (i + 1))
    else Store.deleteLoop all id (i + 1) rest

/-- The method `Store.Delete`: the returned flag and the store afterwards. -/
def Store.Delete (s : Store) (id : GoString) : Bool × Store :=
  let r := Store.deleteLoop s.Devices id 0 s.Devices
  (r.1, { s with Devices := r.2 })

/-- The `range` loop of `Store.Get`; `none` is the nil pointer. -/
def Store.getLoop (id : GoString) : List Device → Option Device
  | [] => none
  | d :: rest => if d.ID = id then some d else Store.getLoop id rest

/-- The method `Store.Get`. -/
def Store.Get (s : Store) (id : GoString) : Option Device := Store.getLoop id s.Devices

/-- The method `Store.All`: a copy of the sequence. -/
def Store.All (s : Store) : List Device := s.Devices

/-- One registry operation together with what it reads from outside. -/
inductive Op where
  | add (d : Device) (now : Int)
  | delete (id : GoString)
deriving DecidableEq, Repr

/-- Runs a sequence of operations; returns the final store and the ids that
the `Add` calls assigned, in call order. -/
def runOps : Store → List Op → Store × List GoString
  | s, [] => (s, [])
  | s, Op.add d now :: ops =>
    let r := s.Add now d
    let t := runOps r.1 ops
    (t.1, r.2.ID :: t.2)
  | s, Op.delete id :: ops => runOps (s.Delete id).2 ops

/-- The clock readings that the `Add` calls of a sequence take. -/
def addClocks : List Op → List Int
  | [] => []
  | Op.add _ now :: ops => now :: addClocks ops
  | Op.delete _ :: ops => addClocks ops

/-! ## Wake-on-LAN -/

/-- The constant `big` of package `net`. -/
def big : Nat := 0xFFFFFF

/-- The loop of `net.xtoi` at position `i` with accumulated value `n`:
returns number, characters consumed, success. -/
def xtoiLoop : List Nat → Nat → Nat → Nat × Nat × Bool
  | [], n, i => if i = 0 then (0, i, false) else (n, i, true)
  | c :: cs, n, i =>
    if 48 ≤ c ∧ c ≤ 57 then
      let n1 := n * 16 + (c - 48)
      if n1 ≥ big then (0, i, false) else xtoiLoop cs n1 (i + 1)
    else if 97 ≤ c ∧ c ≤ 102 then
      let n1 := n * 16 + (c - 97) + 10
      if n1 ≥ big then (0, i, false) else xtoiLoop cs n1 (i + 1)
    else if 65 ≤ c ∧ c ≤ 70 then
      let n1 := n * 16 + (c - 65) + 10
      if n1 ≥ big then (0, i, false) else xtoiLoop cs n1 (i + 1)
    else if i = 0 then (0, i, false) else (n, i, true)

/-- The function `net.xtoi`: hexadecimal to integer. -/
def xtoi (s : GoString) : Nat × Nat × Bool := xtoiLoop s 0 0

/-- The function `net.xtoi2`: the next two hex digits of `s` as a byte; when `s` is longer
than two bytes the third must be `e`.  Every call has `len(s) ≥ 2`. -/
def xtoi2 (s : GoString) (e : Nat) : Nat × Bool :=
  if s.length > 2 ∧ s.getD 2 0 ≠ e then (0, false)
  else
    let r := xtoi (s.take 2)
    (r.1 % 256, r.2.2 && r.2.1 == 2)

/-- The loop of `net.ParseMAC` for the forms `00:00:5e:00:53:01` and
`00-00-5e-00-53-01`: `k` octets still to read from offset `x`. -/
def parseMACColon (s : GoString) : Nat → Nat → Option (List Nat)
  | 0, _ => some []
  | k + 1, x =>
    let r := xtoi2 (s.drop x) (s.getD 2 0)
    if r.2 then (parseMACColon s k (x + 3)).map (fun hw => r.1 :: hw) else none

/-- The loop of `net.ParseMAC` for the form `0000.5e00.5301`: `k` groups of
two octets still to read from offset `x`. -/
def parseMACDot (s : GoString) : Nat → Nat → Option (List Nat)
  | 0, _ => some []
  | k + 1, x =>
    let r := xtoi2 ((s.drop x).take 2) 0
    if r.2 then
      let q := xtoi2 (s.drop (x + 2)) (s.getD 4 0)
      if q.2 then (parseMACDot s k (x + 5)).map (fun hw => r.1 :: q.1 :: hw) else none
    else none

/-- The function `net.ParseMAC` of the Go standard library, which
`sendMagicPacket` calls: `none` is the error result. -/
def ParseMAC (s : GoString) : Option (List Nat) :=
  if s.length < 14 then none
  else if s.getD 2 0 = 58 ∨ s.getD 2 0 = 45 then
    if (s.length + 1) % 3 ≠ 0 then none
    else
      let n := (s.length + 1) / 3
      if n ≠ 6 ∧ n ≠ 8 ∧ n ≠ 20 then none else parseMACColon s n 0
  else if s.getD 4 0 = 46 then
    if (s.length + 1) % 5 ≠ 0 then none
    else
      let n := 2 * (s.length + 1) / 5
      if n ≠ 6 ∧ n ≠ 8 ∧ n ≠ 20 then none else parseMACDot s (n / 2) 0
  else none

/-- The built-in `copy(dst[off:], src)`: overwrites `dst` from offset `off`
with as much of `src` as fits. -/
def copyAt (dst : List Nat) (off : Nat) (src : List Nat) : List Nat :=
  let n := min (dst.length - off) src.length
  dst.take off ++ src.take n ++ dst.drop (off + n)

/-- The payload that `sendMagicPacket` builds from the parsed address. -/
def magicPacket (hw : List Nat) : List Nat :=
  let packet := List.replicate 102 0
  let packet := (List.range 6).foldl (fun p i => p.set i 0xFF) packet
  (List.range' 1 16).foldl (fun p i => copyAt p (i * 6) hw) packet

/-- What `sendMagicPacket` does on the network. -/
inductive NetEvent where
  | dial (network address : GoString)
  | write (payload : List Nat)
  | close
deriving DecidableEq, Repr

/-- The error value `sendMagicPacket` returns. -/
inductive SendError where
  | invalidMAC
  | dialError
  | writeError
deriving DecidableEq, Repr

/-- How the network stack answers: whether `net.Dial` and `conn.Write`
succeed. -/
structure NetEnv where
  dialOk : Bool
  writeOk : Bool
deriving DecidableEq, Repr

/-- The function `sendMagicPacket`: the returned error (`none` is nil) and the network
operations performed, in order. -/
def sendMagicPacket (env : NetEnv) (mac : GoString) : Option SendError × List NetEvent :=
  match ParseMAC mac with
  | none => (some SendError.invalidMAC, [])
  | some hw =>
    let packet := magicPacket hw
    let dial := NetEvent.dial (lit "udp") (lit "255.255.255.255:9")
    if env.dialOk then
      (if env.writeOk then none else some SendError.writeError,
        [dial, NetEvent.write packet, NetEvent.close])
    else (some SendError.dialError, [dial])

/-! ## Package `unicode/utf8` -/

/-- The constant `utf8.RuneError`, U+FFFD. -/
def RuneError : Nat := 0xFFFD

/-- The tables `first` and `acceptRanges` of package `utf8` for a leading byte
of a multi-byte sequence: the length of the sequence and the lowest and
highest second byte accepted; `none` for the bytes marked invalid. -/
def utf8First (p0 : Nat) : Option (Nat × Nat × Nat) :=
  if 0xC2 ≤ p0 ∧ p0 ≤ 0xDF then some (2, 0x80, 0xBF)
  else if p0 = 0xE0 then some (3, 0xA0, 0xBF)
  else if 0xE1 ≤ p0 ∧ p0 ≤ 0xEC then some (3, 0x80, 0xBF)
  else if p0 = 0xED then some (3, 0x80, 0x9F)
  else if 0xEE ≤ p0 ∧ p0 ≤ 0xEF then some (3, 0x80, 0xBF)
  else if p0 = 0xF0 then some (4, 0x90, 0xBF)
  else if 0xF1 ≤ p0 ∧ p0 ≤ 0xF3 then some (4, 0x80, 0xBF)
  else if p0 = 0xF4 then some (4, 0x80, 0x8F)
  else none

/-- The function `utf8.DecodeRune`: the first rune of `p` and its width in bytes; an
encoding error gives `(RuneError, 1)`.  The masks and shifts of the source are
written as remainders and products. -/
def DecodeRune (p : List Nat) : Nat × Nat :=
  match p with
  | [] => (RuneError, 0)
  | p0 :: t =>
    if p0 < 0x80 then (p0, 1)
    else
      match utf8First p0 with
      | none => (RuneError, 1)
      | some (sz, lo, hi) =>
        if t.length + 1 < sz then (RuneError, 1)
        else
          let b1 := t.getD 0 0
          if b1 < lo ∨ hi < b1 then (RuneError, 1)
          else if sz ≤ 2 then (p0 % 32 * 64 + b1 % 64, 2)
          else
            let b2 := t.getD 1 0
            if b2 < 0x80 ∨ 0xBF < b2 then (RuneError, 1)
            else if sz ≤ 3 then (p0 % 16 * 4096 + b1 % 64 * 64 + b2 % 64, 3)
            else
              let b3 := t.getD 2 0
              if b3 < 0x80 ∨ 0xBF < b3 then (RuneError, 1)
              else (p0 % 8 * 262144 + b1 % 64 * 4096 + b2 % 64 * 64 + b3 % 64, 4)

/-- The function `utf8.EncodeRune` for a non-negative rune: the bytes written. -/
def EncodeRune (r : Nat) : List Nat :=
  if r ≤ 0x7F then [r]
  else if r ≤ 0x7FF then [0xC0 + r / 64, 0x80 + r % 64]
  else if r > 0x10FFFF ∨ (0xD800 ≤ r ∧ r ≤ 0xDFFF) then [0xEF, 0xBF, 0xBD]
  else if r ≤ 0xFFFF then [0xE0 + r / 4096, 0x80 + r / 64 % 64, 0x80 + r % 64]
  else [0xF0 + r / 262144, 0x80 + r / 4096 % 64, 0x80 + r / 64 % 64, 0x80 + r % 64]

/-- The function `utf8.ValidString`, with `fuel` at least the length of `s`: no position of
`s` decodes to an encoding error. -/
def ValidString : Nat → GoString → Bool
  | _, [] => true
  | 0, _ :: _ => false
  | fuel + 1, b :: t =>
    let r := DecodeRune (b :: t)
    if r.1 = RuneError ∧ r.2 = 1 then false else ValidString fuel ((b :: t).drop r.2)

/-- Whether a Go string is valid UTF-8. -/
def validUTF8 (s : GoString) : Bool := ValidString s.length s

/-! ## Package `encoding/json`: encoding

`json.MarshalIndent(s, "", "  ")` on a `*Store` writes the exported fields
under their tag names in declaration order; `mu` and `path` are unexported and
left out. -/

/-- The table `htmlSafeSet`: the ASCII bytes a JSON string holds unescaped. -/
def htmlSafe (b : Nat) : Bool :=
  0x20 ≤ b && b < 0x80 && b != 0x22 && b != 0x26 && b != 0x3C && b != 0x3E && b != 0x5C

/-- The table `hex` of package `json`: the digit `"0123456789abcdef"[n]`. -/
def hexDigit (n : Nat) : Nat := if n < 10 then 48 + n else 87 + n

/-- The escape that `appendString` writes for an ASCII byte outside
`htmlSafeSet`. -/
def escapeByte (b : Nat) : List Nat :=
  if b = 0x5C ∨ b = 0x22 then [0x5C, b]
  else if b = 8 then [0x5C, 98]
  else if b = 12 then [0x5C, 102]
  else if b = 10 then [0x5C, 110]
  else if b = 13 then [0x5C, 114]
  else if b = 9 then [0x5C, 116]
  else [0x5C, 117, 48, 48, hexDigit (b / 16), hexDigit (b % 16)]

/-- The loop of `appendString` with HTML escaping on: the text between the
quotes for the bytes still to write. -/
def quoteBody : Nat → GoString → List Nat
  | _, [] => []
  | 0, _ :: _ => []
  | fuel + 1, b :: t =>
    if b < 0x80 then
      (if htmlSafe b then [b] else escapeByte b) ++ quoteBody fuel t
    else
      let r := DecodeRune ((b :: t).take 4)
      if r.1 = RuneError ∧ r.2 = 1 then
        [0x5C, 117, 102, 102, 102, 100] ++ quoteBody fuel t
      else if r.1 = 0x2028 ∨ r.1 = 0x2029 then
        [0x5C, 117, 50, 48, 50, hexDigit (r.1 % 16)] ++ quoteBody fuel ((b :: t).drop r.2)
      else (b :: t).take r.2 ++ quoteBody fuel ((b :: t).drop r.2)

/-- The JSON string literal `appendString` writes for a Go string. -/
def quote (s : GoString) : List Nat := 34 :: quoteBody s.length s ++ [34]

/-- The indented encoding of one `Device` inside the `devices` array. -/
def encodeDevice (d : Device) : List Nat :=
  lit "\x7b\n      \"id\": " ++ quote d.ID ++
  lit ",\n      \"name\": " ++ quote d.Name ++
  lit ",\n      \"mac\": " ++ quote d.MAC ++
  lit ",\n      \"ip\": " ++ quote d.IP ++
  lit ",\n      \"online\": " ++ (if d.Online then lit "true" else lit "false") ++
  lit ",\n      \"last_seen\": " ++ quote d.LastSeen ++
  lit "\n    \x7d"

/-- The elements of the `devices` array after the first, each behind its
comma. -/
def encodeMore : List Device → List Nat
  | [] => []
  | d :: ds => lit ",\n    " ++ encodeDevice d ++ encodeMore ds

/-- The indented encoding of the non-nil slice `s.Devices`. -/
def encodeDevices : List Device → List Nat
  | [] => lit "[]"
  | d :: ds => lit "[\n    " ++ encodeDevice d ++ encodeMore ds ++ lit "\n  ]"

/-- The bytes `json.MarshalIndent(s, "", "  ")` returns for a store. -/
def MarshalIndent (s : Store) : List Nat :=
  lit "\x7b\n  \"devices\": " ++ encodeDevices s.Devices ++ lit "\n\x7d"

/-! ## Package `encoding/json`: decoding

`json.Unmarshal` first checks the whole input with its scanner and touches the
destination only when the input is well-formed JSON.  The scanner is written
here as a tokeniser followed by a stack automaton over the tokens; they accept
the same inputs. -/

/-- A hexadecimal digit. -/
def isHex (c : Nat) : Bool :=
  (48 ≤ c && c ≤ 57) || (97 ≤ c && c ≤ 102) || (65 ≤ c && c ≤ 70)

/-- The scanner states inside a string literal: `stateInString`,
`stateInStringEsc`, and `stateInStringEscU` to `stateInStringEscU123` with the
number of hexadecimal digits still to come. -/
inductive StrState where
  | plain
  | esc
  | hex (k : Nat)
deriving DecidableEq, Repr

/-- The scanner inside a string literal, byte by byte from just after the
opening quote: the raw text up to the closing quote and the input after it;
`none` is a syntax error. -/
def scanString : StrState → List Nat → Option (List Nat × List Nat)
  | _, [] => none
  | StrState.plain, c :: cs =>
    if c = 34 then some ([], cs)
    else if c = 92 then (scanString StrState.esc cs).map (fun r => (c :: r.1, r.2))
    else if c < 0x20 then none
    else (scanString StrState.plain cs).map (fun r => (c :: r.1, r.2))
  | StrState.esc, c :: cs =>
    if c = 98 ∨ c = 102 ∨ c = 110 ∨ c = 114 ∨ c = 116 ∨ c = 92 ∨ c = 47 ∨ c = 34 then
      (scanString StrState.plain cs).map (fun r => (c :: r.1, r.2))
    else if c = 117 then (scanString (StrState.hex 4) cs).map (fun r => (c :: r.1, r.2))
    else none
  | StrState.hex k, c :: cs =>
    if isHex c then
      (scanString (if k ≤ 1 then StrState.plain else StrState.hex (k - 1)) cs).map
        (fun r => (c :: r.1, r.2))
    else none

/-- The value of a hexadecimal digit. -/
def hexVal (c : Nat) : Nat :=
  if 48 ≤ c ∧ c ≤ 57 then c - 48
  else if 97 ≤ c ∧ c ≤ 102 then c - 97 + 10
  else c - 65 + 10

/-- The function `getu4`: the rune of a leading `\uXXXX`; `none` is -1. -/
def getu4 (s : List Nat) : Option Nat :=
  match s with
  | a :: b :: h1 :: h2 :: h3 :: h4 :: _ =>
    if a = 92 ∧ b = 117 ∧ isHex h1 ∧ isHex h2 ∧ isHex h3 ∧ isHex h4 then
      some (((hexVal h1 * 16 + hexVal h2) * 16 + hexVal h3) * 16 + hexVal h4)
    else none
  | _ => none

/-- The function `utf16.DecodeRune` on a first half and on the result of `getu4` for the
second. -/
def utf16DecodeRune (r1 : Nat) (r2 : Option Nat) : Nat :=
  match r2 with
  | some r2 =>
    if 0xD800 ≤ r1 ∧ r1 < 0xDC00 ∧ 0xDC00 ≤ r2 ∧ r2 < 0xE000 then
      (r1 - 0xD800) * 1024 + (r2 - 0xDC00) + 0x10000
    else 0xFFFD
  | none => 0xFFFD

/-- One round of the loop of `unquoteBytes` on the raw text of a string
literal: the bytes written and the text left; `none` is failure.  An escape is
resolved, malformed UTF-8 is replaced by U+FFFD. -/
def unquoteStep (s : List Nat) : Option (List Nat × List Nat) :=
  match s with
  | [] => none
  | c :: cs =>
    if c = 92 then
      match cs with
      | [] => none
      | e :: cs1 =>
        if e = 34 ∨ e = 92 ∨ e = 47 ∨ e = 39 then some ([e], cs1)
        else if e = 98 then some ([8], cs1)
        else if e = 102 then some ([12], cs1)
        else if e = 110 then some ([10], cs1)
        else if e = 114 then some ([13], cs1)
        else if e = 116 then some ([9], cs1)
        else if e = 117 then
          match getu4 (c :: cs) with
          | none => none
          | some rr =>
            let rest := cs1.drop 4
            if 0xD800 ≤ rr ∧ rr < 0xE000 then
              let dec := utf16DecodeRune rr (getu4 rest)
              if dec ≠ 0xFFFD then some (EncodeRune dec, rest.drop 6)
              else some (EncodeRune 0xFFFD, rest)
            else some (EncodeRune rr, rest)
        else none
    else if c = 34 ∨ c < 0x20 then none
    else if c < 0x80 then some ([c], cs)
    else
      let r := DecodeRune (c :: cs)
      some (EncodeRune r.1, (c :: cs).drop r.2)

/-- The loop of `unquoteBytes`, with `fuel` at least the length of the raw
text: the Go string the literal denotes. -/
def unquote : Nat → List Nat → Option GoString
  | _, [] => some []
  | 0, _ :: _ => none
  | fuel + 1, c :: cs =>
    match unquoteStep (c :: cs) with
    | none => none
    | some r => (unquote fuel r.2).map (fun t => r.1 ++ t)

/-- A JSON token; a string carries the Go string it denotes. -/
inductive Token where
  | lbrace
  | rbrace
  | lbrack
  | rbrack
  | colon
  | comma
  | str (s : GoString)
  | num
  | tru
  | fls
  | nul
deriving DecidableEq, Repr

/-- The function `isSpace` of the scanner. -/
def isSpace (c : Nat) : Bool := c == 32 || c == 9 || c == 13 || c == 10

/-- A decimal digit. -/
def isDigit (c : Nat) : Bool := 48 ≤ c && c ≤ 57

/-- The scanner after the integer and fraction of a number: an optional
exponent. -/
def scanExponent (s : List Nat) : Option (List Nat) :=
  match s with
  | e :: t =>
    if e = 101 ∨ e = 69 then
      let t1 := match t with
        | g :: u => if g = 43 ∨ g = 45 then u else t
        | [] => t
      match t1 with
      | d :: u => if isDigit d then some (u.dropWhile isDigit) else none
      | [] => none
    else some s
  | [] => some s

/-- The scanner after the integer part of a number: an optional fraction,
then an optional exponent. -/
def scanFraction (s : List Nat) : Option (List Nat) :=
  match s with
  | p :: t =>
    if p = 46 then
      match t with
      | d :: u => if isDigit d then scanExponent (u.dropWhile isDigit) else none
      | [] => none
    else scanExponent s
  | [] => some s

/-- The scanner on a number: the input after it. -/
def scanNumber (s : List Nat) : Option (List Nat) :=
  let s1 := match s with
    | m :: t => if m = 45 then t else s
    | [] => s
  match s1 with
  | d :: t =>
    if d = 48 then scanFraction t
    else if 49 ≤ d ∧ d ≤ 57 then scanFraction (t.dropWhile isDigit)
    else none
  | [] => none

/-- One step of the tokeniser: skips one byte of white space or reads one
token; `none` is a syntax error. -/
def lexStep (s : List Nat) : Option (Option Token × List Nat) :=
  match s with
  | [] => none
  | c :: cs =>
    if isSpace c then some (none, cs)
    else if c = 123 then some (some Token.lbrace, cs)
    else if c = 125 then some (some Token.rbrace, cs)
    else if c = 91 then some (some Token.lbrack, cs)
    else if c = 93 then some (some Token.rbrack, cs)
    else if c = 58 then some (some Token.colon, cs)
    else if c = 44 then some (some Token.comma, cs)
    else if c = 34 then
      match scanString StrState.plain cs with
      | none => none
      | some r => (unquote r.1.length r.1).map (fun t => (some (Token.str t), r.2))
    else if c = 45 ∨ isDigit c then (scanNumber (c :: cs)).map (fun r => (some Token.num, r))
    else if c = 116 then
      if cs.take 3 = [114, 117, 101] then some (some Token.tru, cs.drop 3) else none
    else if c = 102 then
      if cs.take 4 = [97, 108, 115, 101] then some (some Token.fls, cs.drop 4) else none
    else if c = 110 then
      if cs.take 3 = [117, 108, 108] then some (some Token.nul, cs.drop 3) else none
    else none

/-- The tokens of an input, with `fuel` at least its length. -/
def lex : Nat → List Nat → Option (List Token)
  | _, [] => some []
  | 0, _ :: _ => none
  | fuel + 1, c :: cs =>
    match lexStep (c :: cs) with
    | none => none
    | some (none, rest) => lex fuel rest
    | some (some t, rest) => (lex fuel rest).map (fun ts => t :: ts)

/-- A JSON value. -/
inductive Value where
  | null
  | bool (b : Bool)
  | number
  | string (s : GoString)
  | array (elems : List Value)
  | object (members : List (GoString × Value))

/-- An open array or object: what has been read of it, last first, and for an
object the key whose value is being read. -/
inductive Frame where
  | arr (done : List Value)
  | obj (done : List (GoString × Value)) (key : GoString)

/-- What the scanner expects next. -/
inductive Phase where
  | beginValue
  | beginValueOrEmpty
  | beginStringOrEmpty
  | beginString
  | afterKey
  | endValue
  | endTop (v : Value)

/-- The scanner state: the open containers, innermost first, and the
phase. -/
structure Parser where
  stack : List Frame
  phase : Phase

/-- The constant `maxNestingDepth`. -/
def maxNestingDepth : Nat := 10000

/-- A value is complete: it joins the innermost open container or is the
top-level value. -/
def complete (stack : List Frame) (v : Value) : Parser :=
  match stack with
  | [] => ⟨[], Phase.endTop v⟩
  | Frame.arr done :: st => ⟨Frame.arr (v :: done) :: st, Phase.endValue⟩
  | Frame.obj done key :: st => ⟨Frame.obj ((key, v) :: done) key :: st, Phase.endValue⟩

/-- A token where a value must begin. -/
def startValue (stack : List Frame) (t : Token) : Option Parser :=
  match t with
  | Token.str s => some (complete stack (Value.string s))
  | Token.num => some (complete stack Value.number)
  | Token.tru => some (complete stack (Value.bool true))
  | Token.fls => some (complete stack (Value.bool false))
  | Token.nul => some (complete stack Value.null)
  | Token.lbrack =>
    if stack.length < maxNestingDepth then some ⟨Frame.arr [] :: stack, Phase.beginValueOrEmpty⟩
    else none
  | Token.lbrace =>
    if stack.length < maxNestingDepth then some ⟨Frame.obj [] [] :: stack, Phase.beginStringOrEmpty⟩
    else none
  | _ => none

/-- A closing bracket. -/
def closeArray (stack : List Frame) : Option Parser :=
  match stack with
  | Frame.arr done :: st => some (complete st (Value.array done.reverse))
  | _ => none

/-- A closing brace. -/
def closeObject (stack : List Frame) : Option Parser :=
  match stack with
  | Frame.obj done _ :: st => some (complete st (Value.object done.reverse))
  | _ => none

/-- An object key. -/
def setKey (stack : List Frame) (k : GoString) : Option Parser :=
  match stack with
  | Frame.obj done _ :: st => some ⟨Frame.obj done k :: st, Phase.afterKey⟩
  | _ => none

/-- A comma after a complete value. -/
def afterComma (stack : List Frame) : Option Parser :=
  match stack with
  | Frame.arr _ :: _ => some ⟨stack, Phase.beginValue⟩
  | Frame.obj _ _ :: _ => some ⟨stack, Phase.beginString⟩
  | [] => none

/-- One token through the scanner; `none` is a syntax error. -/
def step (p : Parser) (t : Token) : Option Parser :=
  match p.phase, t with
  | Phase.beginValue, t => startValue p.stack t
  | Phase.beginValueOrEmpty, Token.rbrack => closeArray p.stack
  | Phase.beginValueOrEmpty, t => startValue p.stack t
  | Phase.beginStringOrEmpty, Token.rbrace => closeObject p.stack
  | Phase.beginStringOrEmpty, Token.str k => setKey p.stack k
  | Phase.beginString, Token.str k => setKey p.stack k
  | Phase.afterKey, Token.colon => some ⟨p.stack, Phase.beginValue⟩
  | Phase.endValue, Token.comma => afterComma p.stack
  | Phase.endValue, Token.rbrack => closeArray p.stack
  | Phase.endValue, Token.rbrace => closeObject p.stack
  | _, _ => none

/-- Runs the scanner over the tokens. -/
def runParser : Parser → List Token → Option Parser
  | p, [] => some p
  | p, t :: ts =>
    match step p t with
    | none => none
    | some q => runParser q ts

/-- The value a token sequence denotes; `none` is a syntax error. -/
def parseTokens (ts : List Token) : Option Value :=
  match runParser ⟨[], Phase.beginValue⟩ ts with
  | some ⟨[], Phase.endTop v⟩ => some v
  | _ => none

/-- The JSON value of an input; `none` when `checkValid` reports a syntax
error. -/
def parseJSON (data : List Nat) : Option Value :=
  match lex data.length data with
  | none => none
  | some ts => parseTokens ts

/-- The function `foldRune` on the runes that matter for ASCII field names:
U+017F folds to `S` and U+212A to `K`; every other rune outside ASCII folds to
a rune outside ASCII, kept here as it is. -/
def foldRune (r : Nat) : Nat :=
  if r = 0x17F then 0x53 else if r = 0x212A then 0x4B else r

/-- The function `foldName`: the key under which a field is found when no
field has exactly the name. -/
def foldName : Nat → GoString → GoString
  | _, [] => []
  | 0, _ :: _ => []
  | fuel + 1, c :: cs =>
    if c < 0x80 then
      (if 97 ≤ c ∧ c ≤ 122 then c - 32 else c) :: foldName fuel cs
    else
      let r := DecodeRune (c :: cs)
      EncodeRune (foldRune r.1) ++ foldName fuel ((c :: cs).drop r.2)

/-- The position in `names` of the field an object key selects: the field of
exactly that name, else the field of the same folded name. -/
def findField (names : List GoString) (key : GoString) : Option Nat :=
  match names.indexOf? key with
  | some i => some i
  | none =>
    (names.map (fun n => foldName n.length n)).indexOf? (foldName key.length key)

/-- The tag names of the fields of `Device`, in declaration order. -/
def deviceFields : List GoString :=
  [lit "id", lit "name", lit "mac", lit "ip", lit "online", lit "last_seen"]

/-- The tag names of the exported fields of `Store`. -/
def storeFields : List GoString := [lit "devices"]

/-- A JSON value stored into a `string` field: a string is stored, `null` is
ignored, anything else is recorded as an `UnmarshalTypeError` and skipped. -/
def storeString (cur : GoString) : Value → GoString
  | Value.string s => s
  | _ => cur

/-- A JSON value stored into a `bool` field. -/
def storeBool (cur : Bool) : Value → Bool
  | Value.bool b => b
  | _ => cur

/-- One member of a JSON object stored into a `Device`; a key that selects no
field is skipped. -/
def decodeDeviceMember (d : Device) (kv : GoString × Value) : Device :=
  match findField deviceFields kv.1 with
  | some 0 => { d with ID := storeString d.ID kv.2 }
  | some 1 => { d with Name := storeString d.Name kv.2 }
  | some 2 => { d with MAC := storeString d.MAC kv.2 }
  | some 3 => { d with IP := storeString d.IP kv.2 }
  | some 4 => { d with Online := storeBool d.Online kv.2 }
  | some 5 => { d with LastSeen := storeString d.LastSeen kv.2 }
  | _ => d

/-- The zero value of `Device`. -/
def zeroDevice : Device := ⟨[], [], [], [], false, []⟩

/-- A JSON value stored into a nil element of type `*Device`; `none` is the
nil pointer.  `null` leaves nil; for any other value a `Device` is allocated,
and only an object stores into it. -/
def decodeDevicePtr : Value → Option Device
  | Value.null => none
  | Value.object members => some (members.foldl decodeDeviceMember zeroDevice)
  | _ => some zeroDevice

/-- The slice `s.Devices` while `json.Unmarshal` runs. -/
inductive Slot where
  | nilSlice
  | slice (ptrs : List (Option Device))
  | reused
deriving DecidableEq, Repr

/-- A JSON value stored into the field `Devices`.  An array stored into a
slice that already has elements (a repeated `devices` key) decodes into the
old elements and spare capacity; that case is left as `Slot.reused`. -/
def decodeDevices (cur : Slot) : Value → Slot
  | Value.null =>
    match cur with
    | Slot.reused => Slot.reused
    | _ => Slot.nilSlice
  | Value.array elems =>
    match cur, elems with
    | Slot.reused, _ => Slot.reused
    | Slot.slice (_ :: _), _ :: _ => Slot.reused
    | _, _ => Slot.slice (elems.map decodeDevicePtr)
  | _ => cur

/-- One member of the top-level object stored into the `Store`. -/
def decodeStoreMember (cur : Slot) (kv : GoString × Value) : Slot :=
  match findField storeFields kv.1 with
  | some 0 => decodeDevices cur kv.2
  | _ => cur

/-- The call `json.Unmarshal(data, s)` on a store whose `Devices` is nil: the slice
afterwards.  The returned error is dropped by the caller. -/
def Unmarshal (data : List Nat) : Slot :=
  match parseJSON data with
  | some (Value.object members) => members.foldl decodeStoreMember Slot.nilSlice
  | _ => Slot.nilSlice

/-! ## Persistence -/

/-- The files: path and content, the entry nearest the head counts. -/
abbrev FS := List (GoString × List Nat)

/-- The function `os.ReadFile`; `none` is an error (no such file). -/
def readFile (fs : FS) (path : GoString) : Option (List Nat) :=
  match fs with
  | [] => none
  | (p, data) :: rest => if p = path then some data else readFile rest path

/-- How a call of `os.WriteFile` ends: the data is written, or the call fails
and leaves the file system in the given state. -/
inductive WriteOutcome where
  | written
  | failed (after : FS)
deriving DecidableEq, Repr

/-- The function `os.WriteFile`. -/
def writeFile (w : WriteOutcome) (fs : FS) (path : GoString) (data : List Nat) : FS :=
  match w with
  | WriteOutcome.written => (path, data) :: fs
  | WriteOutcome.failed after => after

/-- The method `Store.Save`: the file system afterwards. -/
def Store.Save (s : Store) (w : WriteOutcome) (fs : FS) : FS :=
  writeFile w fs s.path (MarshalIndent s)

/-- The pointers of a slice as device values, when none of them is nil. -/
def derefAll : List (Option Device) → Option (List Device)
  | [] => some []
  | none :: _ => none
  | some d :: rest => (derefAll rest).map (fun ds => d :: ds)

/-- The function `NewStore`.  The result is `none` where the loaded slice is outside the
state space of this model: it holds a nil pointer (a `null` array element) or
was decoded into reused storage. -/
def NewStore (fs : FS) (path : GoString) : Option Store :=
  let slot := match readFile fs path with
    | some data => Unmarshal data
    | none => Slot.nilSlice
  match slot with
  | Slot.nilSlice => some ⟨[], path⟩
  | Slot.slice ptrs => (derefAll ptrs).map (fun ds => ⟨ds, path⟩)
  | Slot.reused => none

/-! ## Ping -/

/-- What the poll loop reads from outside, by the position `k` of the device
in the snapshot: the operating system name, whether the ping command run for
position `k` exits with status 0, the clock reading taken at position `k`, and
the layout `2006-01-02 15:04:05` of a clock reading in local time. -/
structure PollEnv where
  goos : GoString
  run : Nat → List GoString → Bool
  clock : Nat → Int
  format : Int → GoString

/-- The function `pingHost` at position `k`. -/
def pingHost (env : PollEnv) (k : Nat) (ip : GoString) : Bool :=
  if ip = [] then false
  else if env.goos = lit "windows" then
    env.run k [lit "ping", lit "-n", lit "1", lit "-w", lit "1000", ip]
  else env.run k [lit "ping", lit "-c", lit "1", lit "-W", lit "1", ip]

/-- The body of the inner loop of `startPingLoop` for the device at position
`k`. -/
def pollDevice (env : PollEnv) (k : Nat) (d : Device) : Device :=
  if d.IP = [] then d
  else
    let online := pingHost env k d.IP
    let d1 := { d with Online := online }
    if online then { d1 with LastSeen := env.format (env.clock k) } else d1

/-- The inner loop of `startPingLoop` over the snapshot, from position `k`. -/
def pollDevices (env : PollEnv) : Nat → List Device → List Device
  | _, [] => []
  | k, d :: ds => pollDevice env k d :: pollDevices env (k + 1) ds

/-- One cycle of the loop in `startPingLoop`, without the sleep: the pass over
`s.All()` and the `Save`.  No other goroutine changes the store meanwhile. -/
def pollCycle (env : PollEnv) (w : WriteOutcome) (s : Store) (fs : FS) : Store × FS :=
  let s1 : Store := { s with Devices := pollDevices env 0 s.All }
  (s1, s1.Save w fs)

/-- Whether a JSON value stored into a `string` field is recorded as an
`UnmarshalTypeError`. -/
def stringMismatch : Value → Bool
  | Value.string _ => false
  | Value.null => false
  | _ => true

/-- Whether a JSON value stored into a `bool` field is recorded as an
`UnmarshalTypeError`. -/
def boolMismatch : Value → Bool
  | Value.bool _ => false
  | Value.null => false
  | _ => true

/-- Whether a member of a device object records an `UnmarshalTypeError`. -/
def deviceMemberMismatch (kv : GoString × Value) : Bool :=
  match findField deviceFields kv.1 with
  | some 4 => boolMismatch kv.2
  | some _ => stringMismatch kv.2
  | none => false

/-- Whether an element of the `devices` array records an
`UnmarshalTypeError`. -/
def devicePtrMismatch : Value → Bool
  | Value.null => false
  | Value.object members => members.any deviceMemberMismatch
  | _ => true

/-- Whether the value of the `devices` member records an
`UnmarshalTypeError`. -/
def devicesMismatch : Value → Bool
  | Value.null => false
  | Value.array elems => elems.any devicePtrMismatch
  | _ => true

/-- Whether a member of the top-level object records an
`UnmarshalTypeError`. -/
def storeMemberMismatch (kv : GoString × Value) : Bool :=
  match findField storeFields kv.1 with
  | some 0 => devicesMismatch kv.2
  | _ => false

/-- Whether `json.Unmarshal(data, s)` returns an error: the input is not
well-formed JSON, or some value in it does not fit the Go type it is stored
into.  `NewStore` drops this result. -/
def UnmarshalFails (data : List Nat) : Bool :=
  match parseJSON data with
  | none => true
  | some Value.null => false
  | some (Value.object members) => members.any storeMemberMismatch
  | some _ => true


/-! ## Notions used in the proofs -/

/-- The input `chunk` is tokenised to `toks`, whatever follows it and with any
fuel that covers the input. -/
def Lexes (chunk : List Nat) (toks : List Token) : Prop :=
  ∀ rest f, (chunk ++ rest).length ≤ f →
    ∃ g, rest.length ≤ g ∧ lex f (chunk ++ rest) = (lex g rest).map (fun ts => toks ++ ts)

/-- The tokens of the encoding of one device. -/
def deviceTokens (d : Device) : List Token :=
  [Token.lbrace, Token.str (lit "id"), Token.colon, Token.str d.ID, Token.comma,
    Token.str (lit "name"), Token.colon, Token.str d.Name, Token.comma,
    Token.str (lit "mac"), Token.colon, Token.str d.MAC, Token.comma,
    Token.str (lit "ip"), Token.colon, Token.str d.IP, Token.comma,
    Token.str (lit "online"), Token.colon, (if d.Online then Token.tru else Token.fls),
    Token.comma,
    Token.str (lit "last_seen"), Token.colon, Token.str d.LastSeen, Token.rbrace]

/-- The tokens of the devices after the first. -/
def moreTokens : List Device → List Token
  | [] => []
  | d :: ds => Token.comma :: (deviceTokens d ++ moreTokens ds)

/-- The tokens of the encoding of the device sequence. -/
def devicesTokens : List Device → List Token
  | [] => [Token.lbrack, Token.rbrack]
  | d :: ds => Token.lbrack :: (deviceTokens d ++ (moreTokens ds ++ [Token.rbrack]))

/-- The tokens of the encoding of a store. -/
def storeTokens (s : Store) : List Token :=
  Token.lbrace :: Token.str (lit "devices") :: Token.colon ::
    (devicesTokens s.Devices ++ [Token.rbrace])

/-- All strings of a device are valid UTF-8. -/
def Device.textValid (d : Device) : Bool :=
  validUTF8 d.ID && validUTF8 d.Name && validUTF8 d.MAC && validUTF8 d.IP && validUTF8 d.LastSeen

/-- The JSON value of the encoding of one device. -/
def deviceValue (d : Device) : Value :=
  Value.object [(lit "id", Value.string d.ID), (lit "name", Value.string d.Name),
    (lit "mac", Value.string d.MAC), (lit "ip", Value.string d.IP),
    (lit "online", Value.bool d.Online), (lit "last_seen", Value.string d.LastSeen)]

/-- The JSON value of the encoding of a store. -/
def storeValue (s : Store) : Value :=
  Value.object [(lit "devices", Value.array (s.Devices.map deviceValue))]

/-! ## The request handlers that change the store -/

/-- The value the scanner has completed at top level, if any. -/
def finished (p : Parser) : Option Value :=
  match p.phase with
  | Phase.endTop v => some v
  | _ => none

/-- The loop of `Decoder.readValue` with `fuel` at least the length of the
input: reads up to the end of the first JSON value and leaves what follows;
`none` is a syntax error or the end of the input inside a value. -/
def readValue : Nat → Parser → List Nat → Option Value
  | 0, _, _ => none
  | fuel + 1, p, input =>
    match lexStep input with
    | none => none
    | some (none, rest) => readValue fuel p rest
    | some (some t, rest) =>
      match step p t with
      | none => none
      | some q =>
        match finished q with
        | some v => some v
        | none => readValue fuel q rest

/-- The call `json.NewDecoder(r.Body).Decode(&d)` on the zero `Device` of the
handler: the device afterwards when the call returns no error, `none` when it
returns one (a syntax error, or a value that does not fit its Go type). -/
def decodeRequest (body : List Nat) : Option Device :=
  match readValue body.length ⟨[], Phase.beginValue⟩ body with
  | some Value.null => some zeroDevice
  | some (Value.object members) =>
    if members.any deviceMemberMismatch then none
    else some (members.foldl decodeDeviceMember zeroDevice)
  | _ => none

/-- The `POST` branch of the handler of `/api/devices`: the store and the
file system afterwards. -/
def handlePost (s : Store) (now : Int) (w : WriteOutcome) (fs : FS) (body : List Nat) :
    Store × FS :=
  match decodeRequest body with
  | none => (s, fs)
  | some d =>
    if d.Name = [] ∨ d.MAC = [] then (s, fs)
    else
      let s1 := (s.Add now d).1
      (s1, s1.Save w fs)

/-- The handler of `/api/devices/`, with `id` the rest of the path: the store
and the file system afterwards.  The wake branch sends a packet and leaves
both as they are. -/
def handleDevicePath (s : Store) (w : WriteOutcome) (fs : FS) (method id : GoString) :
    Store × FS :=
  if id = [] then (s, fs)
  else if id.length > 5 ∧ id.drop (id.length - 5) = lit "/wake" then (s, fs)
  else if method = lit "DELETE" then
    let r := s.Delete id
    if r.1 then (r.2, r.2.Save w fs) else (r.2, fs)
  else (s, fs)

/-! ## Package `time`: the layout of `last_seen` -/

/-- The calendar fields of a clock reading in the local zone. -/
structure CivilTime where
  year : Int
  month : Nat
  day : Nat
  hour : Nat
  minute : Nat
  second : Nat
deriving DecidableEq, Repr

/-- The function `appendInt` of package `time`: a sign for a negative number,
then its decimal digits padded with zeros to `width`. -/
def appendInt (x : Int) (width : Nat) : GoString :=
  (if x < 0 then [45] else []) ++
    (List.replicate (width - (formatNat x.natAbs).length) 48 ++ formatNat x.natAbs)

/-- The text of `Format("2006-01-02 15:04:05")` for the given calendar
fields. -/
def formatCivil (t : CivilTime) : GoString :=
  appendInt t.year 4 ++ [45] ++ appendInt t.month 2 ++ [45] ++ appendInt t.day 2 ++ [32] ++
    appendInt t.hour 2 ++ [58] ++ appendInt t.minute 2 ++ [58] ++ appendInt t.second 2

/-! ## The stores the program can hold -/

/-- The stores the program can hold: the one `main` loads from the data file,
and those that a request handler or a poll cycle, run one at a time, makes of
such a store.  In a poll cycle the text of a clock reading is the layout of
the source applied to the calendar fields `zone` gives for the reading. -/
inductive Reachable : Store → Prop where
  | load (fs : FS) (path : GoString) (s : Store) (h : NewStore fs path = some s) : Reachable s
  | post (s : Store) (now : Int) (w : WriteOutcome) (fs : FS) (body : List Nat)
      (h : Reachable s) : Reachable (handlePost s now w fs body).1
  | devicePath (s : Store) (w : WriteOutcome) (fs : FS) (method id : GoString)
      (h : Reachable s) : Reachable (handleDevicePath s w fs method id).1
  | poll (s : Store) (env : PollEnv) (w : WriteOutcome) (fs : FS) (zone : Int → CivilTime)
      (hz : ∀ t, env.format t = formatCivil (zone t)) (h : Reachable s) :
      Reachable (pollCycle env w s fs).1

/-- Every string in a JSON value is valid UTF-8. -/
inductive ValidValue : Value → Prop where
  | null : ValidValue Value.null
  | bool (b : Bool) : ValidValue (Value.bool b)
  | number : ValidValue Value.number
  | string (s : GoString) (h : validUTF8 s = true) : ValidValue (Value.string s)
  | array (elems : List Value) (h : ∀ e ∈ elems, ValidValue e) : ValidValue (Value.array elems)
  | object (members : List (GoString × Value)) (h : ∀ kv ∈ members, ValidValue kv.2) :
      ValidValue (Value.object members)

/-- Every value read so far into an open container is valid. -/
def ValidFrame : Frame → Prop
  | Frame.arr done => ∀ v ∈ done, ValidValue v
  | Frame.obj done _ => ∀ kv ∈ done, ValidValue kv.2

/-- Every value the scanner holds is valid. -/
def ValidParser (p : Parser) : Prop :=
  (∀ f ∈ p.stack, ValidFrame f) ∧ ∀ v, p.phase = Phase.endTop v → ValidValue v

/-- A string token carries valid UTF-8. -/
def ValidToken : Token → Prop
  | Token.str s => validUTF8 s = true
  | _ => True

/-- Every non-nil pointer of the slice points to a device with valid text. -/
def ValidSlot : Slot → Prop
  | Slot.slice ptrs => ∀ d, some d ∈ ptrs → d.textValid = true
  | _ => True

/-! ## Registry: `Add` and `Delete` -/

theorem parseDec_decimalDigits (fuel n : Nat) (acc : List Nat) (h : n < fuel) :
    List.foldl (fun a c => a * 10 + (c - 48)) 0 (decimalDigits fuel n acc)
      = List.foldl (fun a c => a * 10 + (c - 48)) n acc := by
  induction fuel generalizing n acc with
  | zero => omega
  | succ fuel ih =>
    unfold decimalDigits
    by_cases h0 : n / 10 = 0
    · simp only [h0, if_true, List.foldl_cons]
      congr 1
      omega
    · simp only [h0, if_false]
      rw [ih (n / 10) _ (by omega)]
      simp only [List.foldl_cons]
      congr 1
      omega

theorem decimalDigits_head (fuel n : Nat) (acc : List Nat) (h : n < fuel) :
    ∃ c t, decimalDigits fuel n acc = c :: t ∧ 48 ≤ c := by
  induction fuel generalizing n acc with
  | zero => omega
  | succ fuel ih =>
    unfold decimalDigits
    by_cases h0 : n / 10 = 0
    · simp only [h0, if_true]
      exact ⟨_, _, rfl, by omega⟩
    · simp only [h0, if_false]
      exact ih (n / 10) _ (by omega)

theorem formatNat_injective : Function.Injective formatNat := by
  intro a b h
  have ha := parseDec_decimalDigits (a + 1) a [] (by omega)
  have hb := parseDec_decimalDigits (b + 1) b [] (by omega)
  unfold formatNat at h
  rw [h] at ha
  simpa using ha.symm.trans hb

/-- Distinct integers have distinct decimal texts. -/
theorem sprintfD_injective : Function.Injective sprintfD := by
  intro a b h
  cases a with
  | ofNat a =>
    cases b with
    | ofNat b => exact congrArg Int.ofNat (formatNat_injective h)
    | negSucc b =>
      obtain ⟨c, t, hc, h48⟩ := decimalDigits_head (a + 1) a [] (by omega)
      simp only [sprintfD, formatNat] at h
      rw [hc] at h
      injection h with h1 _
      omega
  | negSucc a =>
    cases b with
    | ofNat b =>
      obtain ⟨c, t, hc, h48⟩ := decimalDigits_head (b + 1) b [] (by omega)
      simp only [sprintfD, formatNat] at h
      rw [hc] at h
      injection h with h1 _
      omega
    | negSucc b =>
      simp only [sprintfD, List.cons.injEq, true_and] at h
      have := formatNat_injective h
      simp at this
      rw [this]

theorem sprintfD_ne_nil (n : Int) : sprintfD n ≠ [] := by
  cases n with
  | ofNat a =>
    obtain ⟨c, t, hc, _⟩ := decimalDigits_head (a + 1) a [] (by omega)
    simp [sprintfD, formatNat, hc]
  | negSucc a => simp [sprintfD]

theorem deleteLoop_absent (all : List Device) (id : GoString) (rest : List Device) (i : Nat)
    (h : ∀ d ∈ rest, d.ID ≠ id) : Store.deleteLoop all id i rest = (false, all) := by
  induction rest generalizing i with
  | nil => rfl
  | cons d rest ih =>
    have hd : d.ID ≠ id := h d (List.mem_cons_self _ _)
    simp only [Store.deleteLoop, hd, if_false]
    exact ih (i + 1) (fun x hx => h x (List.mem_cons_of_mem _ hx))

theorem deleteLoop_present (id : GoString) (pre rest : List Device)
    (h : ∃ d ∈ rest, d.ID = id) :
    ∃ mid d post, rest = mid ++ d :: post ∧ (∀ x ∈ mid, x.ID ≠ id) ∧ d.ID = id ∧
      Store.deleteLoop (pre ++ rest) id pre.length rest = (true, pre ++ mid ++ post) := by
  induction rest generalizing pre with
  | nil => simp at h
  | cons e rest ih =>
    by_cases he : e.ID = id
    · refine ⟨[], e, rest, rfl, by simp, he, ?_⟩
      simp [Store.deleteLoop, he, List.take_append_eq_append_take, List.drop_append_eq_append_drop]
    · have h1 : ∃ d ∈ rest, d.ID = id := by
        obtain ⟨d, hd, hid⟩ := h
        rcases List.mem_cons.mp hd with rfl | hd
        · exact absurd hid he
        · exact ⟨d, hd, hid⟩
      obtain ⟨mid, d, post, hr, hm, hid, hdel⟩ := ih (pre ++ [e]) h1
      refine ⟨e :: mid, d, post, by simp [hr], ?_, hid, ?_⟩
      · intro x hx
        rcases List.mem_cons.mp hx with rfl | hx
        · exact he
        · exact hm x hx
      · simp only [Store.deleteLoop, he, if_false]
        have := hdel
        simp only [List.append_assoc, List.singleton_append, List.length_append,
          List.length_singleton] at this
        simpa using this

/-- The ids assigned in a run are the decimal texts of the clock readings of
its `Add` calls. -/
theorem runOps_ids (s : Store) (ops : List Op) :
    (runOps s ops).2 = (addClocks ops).map sprintfD := by
  induction ops generalizing s with
  | nil => rfl
  | cons op ops ih =>
    cases op with
    | add d now => simp [runOps, addClocks, ih, Store.Add]
    | delete id => simp [runOps, addClocks, ih]

/-- C3, as stated, fails: two `Add` calls that read the same clock value
assign the same id, here to a device added after the first holder of the id
was deleted. -/
theorem add_ids_repeat_on_equal_clock :
    ¬ (runOps ⟨[], lit "p"⟩
        [Op.add zeroDevice 7, Op.delete (lit "7"), Op.add zeroDevice 7]).2.Nodup := by
  decide

/-- C3, amended: over every sequence of `Add` and `Delete` operations whose
`Add` calls read pairwise distinct clock values, the ids that `Add` assigns
are pairwise distinct, whatever was deleted in between. -/
theorem add_ids_nodup_of_clocks_nodup (s : Store) (ops : List Op)
    (h : (addClocks ops).Nodup) : (runOps s ops).2.Nodup := by
  rw [runOps_ids]
  exact h.map sprintfD_injective

theorem add_ids_nodup_of_clocks_nodup_witness :
    (addClocks [Op.add zeroDevice 7, Op.delete (lit "7"), Op.add zeroDevice 8]).Nodup ∧
    (runOps ⟨[], lit "p"⟩
        [Op.add zeroDevice 7, Op.delete (lit "7"), Op.add zeroDevice 8]).2.Nodup :=
  ⟨by decide, add_ids_nodup_of_clocks_nodup _ _ (by decide)⟩

/-- C4: when no stored device carries `id`, `Delete(id)` returns false and
leaves the store, hence the device sequence with its length, contents and
order, unchanged. -/
theorem delete_absent (s : Store) (id : GoString) (h : ∀ d ∈ s.Devices, d.ID ≠ id) :
    s.Delete id = (false, s) := by
  simp [Store.Delete, deleteLoop_absent s.Devices id s.Devices 0 h]

theorem delete_absent_witness :
    (∀ d ∈ (⟨[⟨lit "1", lit "pc", lit "m", [], false, []⟩], lit "p"⟩ : Store).Devices,
      d.ID ≠ lit "2") ∧
    (⟨[⟨lit "1", lit "pc", lit "m", [], false, []⟩], lit "p"⟩ : Store).Delete (lit "2") =
      (false, ⟨[⟨lit "1", lit "pc", lit "m", [], false, []⟩], lit "p"⟩) :=
  ⟨by decide, delete_absent _ _ (by decide)⟩

/-- C8: when some stored device carries `id`, `Delete(id)` returns true and
the sequence afterwards is the old one without the first device whose id
matches: the devices before it and after it stay, in order, and the length
drops by one. -/
theorem delete_present (s : Store) (id : GoString) (h : ∃ d ∈ s.Devices, d.ID = id) :
    ∃ pre d post, s.Devices = pre ++ d :: post ∧ (∀ x ∈ pre, x.ID ≠ id) ∧ d.ID = id ∧
      s.Delete id = (true, { s with Devices := pre ++ post }) ∧
      (s.Delete id).2.Devices.length + 1 = s.Devices.length := by
  obtain ⟨mid, d, post, hr, hm, hid, hdel⟩ := deleteLoop_present id [] s.Devices h
  simp only [List.nil_append, List.length_nil] at hdel
  have hD : s.Delete id = (true, { s with Devices := mid ++ post }) := by
    simp [Store.Delete, hdel]
  refine ⟨mid, d, post, hr, hm, hid, hD, ?_⟩
  rw [hD, hr]
  simp only [List.length_append, List.length_cons]
  omega

theorem delete_present_witness :
    (∃ d ∈ (⟨[⟨lit "1", [], [], [], false, []⟩, ⟨lit "2", [], [], [], false, []⟩,
        ⟨lit "1", lit "x", [], [], false, []⟩], lit "p"⟩ : Store).Devices, d.ID = lit "1") ∧
    ∃ pre d post,
      (⟨[⟨lit "1", [], [], [], false, []⟩, ⟨lit "2", [], [], [], false, []⟩,
        ⟨lit "1", lit "x", [], [], false, []⟩], lit "p"⟩ : Store).Devices = pre ++ d :: post ∧
      (∀ x ∈ pre, x.ID ≠ lit "1") ∧ d.ID = lit "1" ∧
      (⟨[⟨lit "1", [], [], [], false, []⟩, ⟨lit "2", [], [], [], false, []⟩,
        ⟨lit "1", lit "x", [], [], false, []⟩], lit "p"⟩ : Store).Delete (lit "1") =
        (true, ⟨pre ++ post, lit "p"⟩) ∧
      ((⟨[⟨lit "1", [], [], [], false, []⟩, ⟨lit "2", [], [], [], false, []⟩,
        ⟨lit "1", lit "x", [], [], false, []⟩], lit "p"⟩ : Store).Delete (lit "1")).2.Devices.length
        + 1 = 3 :=
  ⟨by decide, delete_present _ _ (by decide)⟩

/-- C9: `Add` accepts every device on every store: the sequence afterwards is
the old one followed by the stored device, whose id is the decimal text of the
clock reading and is not empty, and whose name, mac, ip, online and last_seen
are those of the argument; the devices stored before are untouched. -/
theorem add_appends (s : Store) (now : Int) (d : Device) :
    (s.Add now d).1.Devices = s.Devices ++ [(s.Add now d).2] ∧
    (s.Add now d).1.path = s.path ∧
    (s.Add now d).2.ID = sprintfD now ∧ (s.Add now d).2.ID ≠ [] ∧
    (s.Add now d).2.Name = d.Name ∧ (s.Add now d).2.MAC = d.MAC ∧
    (s.Add now d).2.IP = d.IP ∧ (s.Add now d).2.Online = d.Online ∧
    (s.Add now d).2.LastSeen = d.LastSeen :=
  ⟨rfl, rfl, rfl, sprintfD_ne_nil now, rfl, rfl, rfl, rfl, rfl⟩

/-! ## Wake-on-LAN -/

/-- The payload for a 6-octet address: six bytes 0xFF, then the address 16
times. -/
theorem magicPacket_six (a b c d e f : Nat) :
    magicPacket [a, b, c, d, e, f] =
      List.replicate 6 255 ++ (List.replicate 16 [a, b, c, d, e, f]).flatten := by
  simp [magicPacket, copyAt, List.range', List.range, List.range.loop, List.replicate, List.take,
    List.drop]

/-- C1: when the MAC string parses to a hardware address `h` of 6 octets, the
payload is 102 bytes long, bytes 0..5 are 0xFF, the byte at offset
`6 + 6 * k + j` is `h[j]` for `k < 16` and `j < 6`, and this payload is the
only one `sendMagicPacket` writes, which it does once the dial succeeds. -/
theorem magicPacket_layout (mac : GoString) (h : List Nat)
    (hp : ParseMAC mac = some h) (hl : h.length = 6) :
    (magicPacket h).length = 102 ∧
    (∀ i, i < 6 → (magicPacket h)[i]? = some 255) ∧
    (∀ k j, k < 16 → j < 6 → (magicPacket h)[6 + 6 * k + j]? = h[j]?) ∧
    (∀ env p, NetEvent.write p ∈ (sendMagicPacket env mac).2 → p = magicPacket h) ∧
    (∀ env, env.dialOk = true →
      NetEvent.write (magicPacket h) ∈ (sendMagicPacket env mac).2) := by
  match h, hl with
  | [a, b, c, d, e, f], _ =>
    refine ⟨?_, ?_, ?_, ?_, ?_⟩
    · rw [magicPacket_six]; rfl
    · intro i hi
      rw [magicPacket_six]
      interval_cases i <;> rfl
    · intro k j hk hj
      rw [magicPacket_six]
      interval_cases k <;> interval_cases j <;> rfl
    · intro env p hm
      simp only [sendMagicPacket, hp] at hm
      split at hm <;> simp at hm
      exact hm
    · intro env hd
      simp [sendMagicPacket, hp, hd]

theorem magicPacket_layout_witness :
    ParseMAC (lit "AA:BB:CC:DD:EE:FF") = some [170, 187, 204, 221, 238, 255] ∧
    (magicPacket [170, 187, 204, 221, 238, 255]).length = 102 ∧
    (∀ k j, k < 16 → j < 6 →
      (magicPacket [170, 187, 204, 221, 238, 255])[6 + 6 * k + j]? =
        [170, 187, 204, 221, 238, 255][j]?) :=
  ⟨by decide,
    (magicPacket_layout (lit "AA:BB:CC:DD:EE:FF") [170, 187, 204, 221, 238, 255]
      (by decide) rfl).1,
    (magicPacket_layout (lit "AA:BB:CC:DD:EE:FF") [170, 187, 204, 221, 238, 255]
      (by decide) rfl).2.2.1⟩

/-- C2: when the MAC string does not parse, `sendMagicPacket` returns the
invalid-MAC error and performs no network operation: no dial, no write. -/
theorem sendMagicPacket_invalid (env : NetEnv) (mac : GoString) (h : ParseMAC mac = none) :
    sendMagicPacket env mac = (some SendError.invalidMAC, []) := by
  simp [sendMagicPacket, h]

theorem sendMagicPacket_invalid_witness :
    ParseMAC (lit "not-a-mac") = none ∧
    sendMagicPacket ⟨true, true⟩ (lit "not-a-mac") = (some SendError.invalidMAC, []) :=
  ⟨by decide, sendMagicPacket_invalid _ _ (by decide)⟩

set_option maxRecDepth 100000 in
/-- C10, the code at the failing input: the 8-octet address
`01:23:45:67:89:ab:cd:ef` passes `net.ParseMAC`, and `sendMagicPacket` goes on
to dial and to write a payload made of its first 6 octets. -/
theorem sendMagicPacket_accepts_eight_octets :
    ParseMAC (lit "01:23:45:67:89:ab:cd:ef") = some [1, 35, 69, 103, 137, 171, 205, 239] ∧
    sendMagicPacket ⟨true, true⟩ (lit "01:23:45:67:89:ab:cd:ef") =
      (none, [NetEvent.dial (lit "udp") (lit "255.255.255.255:9"),
        NetEvent.write
          (List.replicate 6 255 ++ (List.replicate 16 [1, 35, 69, 103, 137, 171]).flatten),
        NetEvent.close]) := by
  decide

/-! ## Poll cycle -/

theorem pollDevices_get (env : PollEnv) (ds : List Device) (k i : Nat) :
    (pollDevices env k ds)[i]? = (ds[i]?).map (pollDevice env (k + i)) := by
  induction ds generalizing k i with
  | nil => simp [pollDevices]
  | cons d ds ih =>
    cases i with
    | zero => simp [pollDevices]
    | succ i =>
      simp only [pollDevices, List.getElem?_cons_succ, ih]
      rw [show k + 1 + i = k + (i + 1) by omega]

theorem pollDevices_length (env : PollEnv) (ds : List Device) (k : Nat) :
    (pollDevices env k ds).length = ds.length := by
  induction ds generalizing k with
  | nil => rfl
  | cons d ds ih => simp [pollDevices, ih]

/-- C5: after one poll cycle the sequence has its old length, and the device
`d` stored at position `i` has become a device `d1` with the same id, name,
mac and ip such that: with a non-empty ip and a probe that returned true,
online is true and last_seen is the formatted clock reading taken at position
`i` of this cycle; with a non-empty ip and a probe that returned false, online
is false and last_seen is as before; with an empty ip the device is as
before, whatever the probe and the clock would have given. -/
theorem pollCycle_device (env : PollEnv) (w : WriteOutcome) (s : Store) (fs : FS)
    (i : Nat) (d : Device) (h : s.Devices[i]? = some d) :
    (pollCycle env w s fs).1.Devices.length = s.Devices.length ∧
    ∃ d1, (pollCycle env w s fs).1.Devices[i]? = some d1 ∧
      d1.ID = d.ID ∧ d1.Name = d.Name ∧ d1.MAC = d.MAC ∧ d1.IP = d.IP ∧
      (d.IP ≠ [] → pingHost env i d.IP = true →
        d1.Online = true ∧ d1.LastSeen = env.format (env.clock i)) ∧
      (d.IP ≠ [] → pingHost env i d.IP = false →
        d1.Online = false ∧ d1.LastSeen = d.LastSeen) ∧
      (d.IP = [] → d1 = d) := by
  refine ⟨by simp [pollCycle, Store.All, pollDevices_length], pollDevice env i d, ?_, ?_⟩
  · simp [pollCycle, Store.All, pollDevices_get, h]
  · unfold pollDevice
    by_cases hip : d.IP = []
    · simp [hip]
    · by_cases hp : pingHost env i d.IP = true
      · simp [hip, hp]
      · simp only [Bool.not_eq_true] at hp
        simp [hip, hp]

theorem pollCycle_device_witness :
    (⟨[⟨lit "1", lit "a", lit "m", lit "10.0.0.1", false, lit "old"⟩,
        ⟨lit "2", lit "b", lit "m", lit "10.0.0.2", true, lit "old"⟩,
        ⟨lit "3", lit "c", lit "m", [], true, lit "old"⟩], lit "p"⟩ : Store).Devices[1]? =
      some ⟨lit "2", lit "b", lit "m", lit "10.0.0.2", true, lit "old"⟩ ∧
    (pollCycle ⟨lit "linux", fun k _ => k == 0, fun k => 100 + k, fun t => sprintfD t⟩
      WriteOutcome.written
      ⟨[⟨lit "1", lit "a", lit "m", lit "10.0.0.1", false, lit "old"⟩,
        ⟨lit "2", lit "b", lit "m", lit "10.0.0.2", true, lit "old"⟩,
        ⟨lit "3", lit "c", lit "m", [], true, lit "old"⟩], lit "p"⟩ []).1.Devices.length = 3 ∧
    (pollCycle ⟨lit "linux", fun k _ => k == 0, fun k => 100 + k, fun t => sprintfD t⟩
      WriteOutcome.written
      ⟨[⟨lit "1", lit "a", lit "m", lit "10.0.0.1", false, lit "old"⟩,
        ⟨lit "2", lit "b", lit "m", lit "10.0.0.2", true, lit "old"⟩,
        ⟨lit "3", lit "c", lit "m", [], true, lit "old"⟩], lit "p"⟩ []).1.Devices =
      [⟨lit "1", lit "a", lit "m", lit "10.0.0.1", true, lit "100"⟩,
        ⟨lit "2", lit "b", lit "m", lit "10.0.0.2", false, lit "old"⟩,
        ⟨lit "3", lit "c", lit "m", [], true, lit "old"⟩] :=
  ⟨rfl,
    (pollCycle_device _ WriteOutcome.written
      ⟨[⟨lit "1", lit "a", lit "m", lit "10.0.0.1", false, lit "old"⟩,
        ⟨lit "2", lit "b", lit "m", lit "10.0.0.2", true, lit "old"⟩,
        ⟨lit "3", lit "c", lit "m", [], true, lit "old"⟩], lit "p"⟩ [] 1
      ⟨lit "2", lit "b", lit "m", lit "10.0.0.2", true, lit "old"⟩ rfl).1,
    by decide⟩

/-! ## UTF-8 decoding and encoding -/

theorem utf8First_some (b sz lo hi : Nat) (h : utf8First b = some (sz, lo, hi)) :
    0xC2 ≤ b ∧ b ≤ 0xF4 ∧ 0x80 ≤ lo ∧ hi ≤ 0xBF ∧
    (b ≤ 0xDF → sz = 2) ∧ (0xE0 ≤ b → b ≤ 0xEF → sz = 3) ∧ (0xF0 ≤ b → sz = 4) ∧
    (b = 0xE0 → lo = 0xA0) ∧ (b = 0xED → hi = 0x9F) ∧ (b = 0xF0 → lo = 0x90) ∧
    (b = 0xF4 → hi = 0x8F) := by
  unfold utf8First at h
  split_ifs at h <;> simp only [Option.some.injEq, Prod.mk.injEq] at h <;>
    (obtain ⟨h1, h2, h3⟩ := h; subst h1 h2 h3; omega)

theorem DecodeRune_two (b b1 lo hi : Nat) (t : List Nat) (hb : ¬ b < 0x80)
    (hf : utf8First b = some (2, lo, hi)) :
    DecodeRune (b :: b1 :: t) =
      if b1 < lo ∨ hi < b1 then (RuneError, 1) else (b % 32 * 64 + b1 % 64, 2) := by
  simp [DecodeRune, hb, hf]

theorem DecodeRune_three (b b1 b2 lo hi : Nat) (t : List Nat) (hb : ¬ b < 0x80)
    (hf : utf8First b = some (3, lo, hi)) :
    DecodeRune (b :: b1 :: b2 :: t) =
      if b1 < lo ∨ hi < b1 then (RuneError, 1)
      else if b2 < 0x80 ∨ 0xBF < b2 then (RuneError, 1)
      else (b % 16 * 4096 + b1 % 64 * 64 + b2 % 64, 3) := by
  simp [DecodeRune, hb, hf]

theorem DecodeRune_four (b b1 b2 b3 lo hi : Nat) (t : List Nat) (hb : ¬ b < 0x80)
    (hf : utf8First b = some (4, lo, hi)) :
    DecodeRune (b :: b1 :: b2 :: b3 :: t) =
      if b1 < lo ∨ hi < b1 then (RuneError, 1)
      else if b2 < 0x80 ∨ 0xBF < b2 then (RuneError, 1)
      else if b3 < 0x80 ∨ 0xBF < b3 then (RuneError, 1)
      else (b % 8 * 262144 + b1 % 64 * 4096 + b2 % 64 * 64 + b3 % 64, 4) := by
  simp [DecodeRune, hb, hf]

/-- A leading byte outside ASCII that does not decode to an encoding error
starts a sequence `b :: tail` of bytes outside ASCII whose rune encodes to
the same bytes and decodes the same whatever follows. -/
theorem DecodeRune_spec (b : Nat) (t : List Nat) (hb : 0x80 ≤ b)
    (hv : ¬ ((DecodeRune (b :: t)).1 = RuneError ∧ (DecodeRune (b :: t)).2 = 1)) :
    ∃ tail rest, b :: t = (b :: tail) ++ rest ∧
      (b :: tail).length = (DecodeRune (b :: t)).2 ∧
      (∀ x ∈ b :: tail, 0x80 ≤ x) ∧ EncodeRune (DecodeRune (b :: t)).1 = b :: tail ∧
      0x80 ≤ (DecodeRune (b :: t)).1 ∧
      ∀ X, DecodeRune ((b :: tail) ++ X) = DecodeRune (b :: t) := by
  have hb' : ¬ b < 0x80 := by omega
  cases hf : utf8First b with
  | none => simp [DecodeRune, hb', hf] at hv
  | some p =>
    obtain ⟨sz, lo, hi⟩ := p
    have hs := utf8First_some b sz lo hi hf
    obtain ⟨h1, h2, h3, h4, h5, h6, h7, h8, h9, h10, h11⟩ := hs
    rcases Nat.lt_or_ge 0xDF b with hA | hA
    · rcases Nat.lt_or_ge 0xEF b with hB | hB
      · -- four bytes
        have hsz : sz = 4 := h7 (by omega)
        subst hsz
        match t with
        | [] => simp [DecodeRune, hb', hf] at hv
        | [b1] => simp [DecodeRune, hb', hf] at hv
        | [b1, b2] => simp [DecodeRune, hb', hf] at hv
        | b1 :: b2 :: b3 :: t' =>
          have hD := fun X => DecodeRune_four b b1 b2 b3 lo hi X hb' hf
          by_cases c1 : b1 < lo ∨ hi < b1
          · rw [hD, if_pos c1] at hv; simp at hv
          by_cases c2 : b2 < 0x80 ∨ 0xBF < b2
          · rw [hD, if_neg c1, if_pos c2] at hv; simp at hv
          by_cases c3 : b3 < 0x80 ∨ 0xBF < b3
          · rw [hD, if_neg c1, if_neg c2, if_pos c3] at hv; simp at hv
          refine ⟨[b1, b2, b3], t', rfl, ?_, ?_, ?_, ?_, ?_⟩
          · rw [hD, if_neg c1, if_neg c2, if_neg c3]; rfl
          · intro x hx
            simp only [List.mem_cons, List.mem_singleton, List.not_mem_nil, or_false] at hx
            omega
          · rw [hD, if_neg c1, if_neg c2, if_neg c3]
            simp only [EncodeRune]
            rw [if_neg (by omega), if_neg (by omega), if_neg (by omega), if_neg (by omega)]
            simp only [List.cons.injEq, and_true]
            omega
          · rw [hD, if_neg c1, if_neg c2, if_neg c3]
            show 128 ≤ b % 8 * 262144 + b1 % 64 * 4096 + b2 % 64 * 64 + b3 % 64
            omega
          · intro X
            show DecodeRune (b :: b1 :: b2 :: b3 :: X) = _
            rw [hD, hD]
      · have hsz : sz = 3 := h6 (by omega) hB
        subst hsz
        match t with
        | [] => simp [DecodeRune, hb', hf] at hv
        | [b1] => simp [DecodeRune, hb', hf] at hv
        | b1 :: b2 :: t' =>
          have hD := fun X => DecodeRune_three b b1 b2 lo hi X hb' hf
          by_cases c1 : b1 < lo ∨ hi < b1
          · rw [hD, if_pos c1] at hv; simp at hv
          by_cases c2 : b2 < 0x80 ∨ 0xBF < b2
          · rw [hD, if_neg c1, if_pos c2] at hv; simp at hv
          refine ⟨[b1, b2], t', rfl, ?_, ?_, ?_, ?_, ?_⟩
          · rw [hD, if_neg c1, if_neg c2]; rfl
          · intro x hx
            simp only [List.mem_cons, List.mem_singleton, List.not_mem_nil, or_false] at hx
            omega
          · rw [hD, if_neg c1, if_neg c2]
            simp only [EncodeRune]
            rw [if_neg (by omega), if_neg (by omega), if_neg (by omega), if_pos (by omega)]
            simp only [List.cons.injEq, and_true]
            omega
          · rw [hD, if_neg c1, if_neg c2]
            show 128 ≤ b % 16 * 4096 + b1 % 64 * 64 + b2 % 64
            omega
          · intro X
            show DecodeRune (b :: b1 :: b2 :: X) = _
            rw [hD, hD]
    · have hsz : sz = 2 := h5 hA
      subst hsz
      match t with
      | [] => simp [DecodeRune, hb', hf] at hv
      | b1 :: t' =>
        have hD := fun X => DecodeRune_two b b1 lo hi X hb' hf
        by_cases c1 : b1 < lo ∨ hi < b1
        · rw [hD, if_pos c1] at hv; simp at hv
        refine ⟨[b1], t', rfl, ?_, ?_, ?_, ?_, ?_⟩
        · rw [hD, if_neg c1]; rfl
        · intro x hx
          simp only [List.mem_cons, List.mem_singleton, List.not_mem_nil, or_false] at hx
          omega
        · rw [hD, if_neg c1]
          simp only [EncodeRune]
          rw [if_neg (by omega), if_pos (by omega)]
          simp only [List.cons.injEq, and_true]
          omega
        · rw [hD, if_neg c1]
          show 128 ≤ b % 32 * 64 + b1 % 64
          omega
        · intro X
          show DecodeRune (b :: b1 :: X) = _
          rw [hD, hD]

theorem DecodeRune_take (b : Nat) (t : List Nat) :
    DecodeRune ((b :: t).take 4) = DecodeRune (b :: t) := by
  match t with
  | [] => rfl
  | [_] => rfl
  | [_, _] => rfl
  | b1 :: b2 :: b3 :: t' =>
    show DecodeRune (b :: b1 :: b2 :: b3 :: List.take 0 t') = _
    rw [List.take_zero]
    by_cases hb : b < 0x80
    · simp [DecodeRune, hb]
    · cases hf : utf8First b with
      | none => simp [DecodeRune, hb, hf]
      | some p =>
        obtain ⟨sz, lo, hi⟩ := p
        have hs := utf8First_some b sz lo hi hf
        have hsz : sz ≤ 4 := by omega
        have e1 : ¬ (([] : List Nat).length + 1 + 1 + 1 + 1 < sz) := by simp; omega
        have e2 : ¬ (t'.length + 1 + 1 + 1 + 1 < sz) := by omega
        simp only [DecodeRune, hb, hf, if_false, List.length_cons, e1, e2,
          List.getD_cons_zero, List.getD_cons_succ]

/-! ## String literals: `appendString`, the scanner and `unquoteBytes` -/

theorem hexDigit_spec : ∀ x, x < 16 → isHex (hexDigit x) = true ∧ hexVal (hexDigit x) = x := by
  decide

theorem unquote_nil (g : Nat) : unquote g [] = some [] := by
  cases g <;> rfl

theorem unquoteStep_safe (b : Nat) (R : List Nat) (hb : b < 0x80) (hs : htmlSafe b = true) :
    unquoteStep (b :: R) = some ([b], R) := by
  simp only [htmlSafe, Bool.and_eq_true, decide_eq_true_eq, bne_iff_ne, ne_eq] at hs
  obtain ⟨⟨⟨⟨⟨⟨h1, h2⟩, h3⟩, h4⟩, h5⟩, h6⟩, h7⟩ := hs
  have c1 : ¬ b = 92 := h7
  have c2 : ¬ (b = 34 ∨ b < 0x20) := by omega
  simp only [unquoteStep, c1, c2, hb, if_false, if_true]

theorem unquoteStep_escape (b : Nat) (R : List Nat) (hb : b < 0x80) (hs : htmlSafe b = false) :
    unquoteStep (escapeByte b ++ R) = some ([b], R) := by
  unfold escapeByte
  by_cases c1 : b = 0x5C ∨ b = 0x22
  · rw [if_pos c1]
    rcases c1 with rfl | rfl <;> simp [unquoteStep]
  rw [if_neg c1]
  by_cases c2 : b = 8
  · subst c2; simp [unquoteStep]
  rw [if_neg c2]
  by_cases c3 : b = 12
  · subst c3; simp [unquoteStep]
  rw [if_neg c3]
  by_cases c4 : b = 10
  · subst c4; simp [unquoteStep]
  rw [if_neg c4]
  by_cases c5 : b = 13
  · subst c5; simp [unquoteStep]
  rw [if_neg c5]
  by_cases c6 : b = 9
  · subst c6; simp [unquoteStep]
  rw [if_neg c6]
  obtain ⟨x1, x2⟩ := hexDigit_spec (b / 16) (by omega)
  obtain ⟨y1, y2⟩ := hexDigit_spec (b % 16) (by omega)
  have hg : getu4 (92 :: 117 :: 48 :: 48 :: hexDigit (b / 16) :: hexDigit (b % 16) :: R)
      = some b := by
    simp only [getu4, x1, y1, x2, y2]
    simp [isHex, hexVal]
    omega
  have hE : EncodeRune b = [b] := by
    simp only [EncodeRune]
    rw [if_pos (by omega)]
  have hns : ¬ (0xD800 ≤ b ∧ b < 0xE000) := by omega
  simp only [List.cons_append, List.nil_append, unquoteStep, hg]
  simp [hE, hns]

theorem unquoteStep_separator (r : Nat) (R : List Nat) (hr : r = 0x2028 ∨ r = 0x2029) :
    unquoteStep ([0x5C, 117, 50, 48, 50, hexDigit (r % 16)] ++ R) = some (EncodeRune r, R) := by
  rcases hr with rfl | rfl <;> simp [unquoteStep, getu4, hexDigit, isHex, hexVal]

theorem unquoteStep_multi (b : Nat) (X : List Nat) (hb : 0x80 ≤ b) :
    unquoteStep (b :: X) =
      some (EncodeRune (DecodeRune (b :: X)).1, (b :: X).drop (DecodeRune (b :: X)).2) := by
  have c1 : ¬ b = 92 := by omega
  have c2 : ¬ (b = 34 ∨ b < 0x20) := by omega
  have c3 : ¬ b < 0x80 := by omega
  simp only [unquoteStep, c1, c2, c3, if_false]

theorem escapeByte_ne_nil (b : Nat) : ∃ x xs, escapeByte b = x :: xs := by
  unfold escapeByte
  split_ifs <;> exact ⟨_, _, rfl⟩

/-- Unquoting the text that `appendString` writes for a valid UTF-8 string
gives the string back. -/
theorem unquote_quoteBody (fuel : Nat) : ∀ (s : GoString) (g : Nat),
    ValidString fuel s = true → (quoteBody fuel s).length ≤ g →
    unquote g (quoteBody fuel s) = some s := by
  induction fuel with
  | zero =>
    intro s g hv _
    cases s with
    | nil => simp [quoteBody, unquote_nil]
    | cons b t => simp [ValidString] at hv
  | succ fuel ih =>
    intro s g hv hg
    cases s with
    | nil => simp [quoteBody, unquote_nil]
    | cons b t =>
      rw [ValidString] at hv
      rw [quoteBody] at hg ⊢
      by_cases hb : b < 0x80
      · have hD : DecodeRune (b :: t) = (b, 1) := by simp [DecodeRune, hb]
        rw [hD] at hv
        have hv' : ValidString fuel t = true := by
          simp only [List.drop_succ_cons, List.drop_zero] at hv
          split_ifs at hv with h
          exact hv
        rw [if_pos hb] at hg ⊢
        by_cases hs : htmlSafe b = true
        · rw [if_pos hs] at hg ⊢
          simp only [List.singleton_append, List.length_cons] at hg ⊢
          obtain ⟨g', rfl⟩ : ∃ g', g = g' + 1 := ⟨g - 1, by omega⟩
          rw [unquote, unquoteStep_safe b _ hb hs]
          simp only [ih t g' hv' (by omega)]
          rfl
        · rw [if_neg hs] at hg ⊢
          obtain ⟨x, xs, hx⟩ := escapeByte_ne_nil b
          have hlen : (escapeByte b ++ quoteBody fuel t).length ≤ g := hg
          obtain ⟨g', rfl⟩ : ∃ g', g = g' + 1 := ⟨g - 1, by
            rw [hx] at hlen; simp at hlen; omega⟩
          have hstep := unquoteStep_escape b (quoteBody fuel t) hb (by simpa using hs)
          rw [hx] at hstep hlen
          rw [hx]
          simp only [List.cons_append] at hstep hlen ⊢
          rw [unquote, hstep]
          simp only [List.length_cons, List.length_append] at hlen
          simp only [ih t g' hv' (by omega)]
          rfl
      · rw [if_neg hb] at hg ⊢
        have hb' : 0x80 ≤ b := by omega
        simp only [DecodeRune_take] at hg ⊢
        by_cases he : (DecodeRune (b :: t)).1 = RuneError ∧ (DecodeRune (b :: t)).2 = 1
        · rw [if_pos he] at hv; exact absurd hv (by simp)
        rw [if_neg he] at hv hg ⊢
        obtain ⟨tail, rest, hsplit, hlen, hhigh, henc, hge, hdec⟩ := DecodeRune_spec b t hb' he
        have hdrop : (b :: t).drop (DecodeRune (b :: t)).2 = rest := by
          rw [← hlen, hsplit]; simp
        have htake : (b :: t).take (DecodeRune (b :: t)).2 = b :: tail := by
          rw [← hlen, hsplit]; simp
        rw [hdrop] at hv hg ⊢
        by_cases hsep : (DecodeRune (b :: t)).1 = 0x2028 ∨ (DecodeRune (b :: t)).1 = 0x2029
        · rw [if_pos hsep] at hg ⊢
          obtain ⟨g', rfl⟩ : ∃ g', g = g' + 1 := ⟨g - 1, by simp at hg; omega⟩
          have hstep := unquoteStep_separator _ (quoteBody fuel rest) hsep
          simp only [List.cons_append, List.nil_append] at hstep hg ⊢
          rw [unquote, hstep]
          simp only [List.length_cons] at hg
          simp only [ih rest g' hv (by omega), henc]
          rw [hsplit]; rfl
        · rw [if_neg hsep] at hg ⊢
          rw [htake] at hg ⊢
          obtain ⟨g', rfl⟩ : ∃ g', g = g' + 1 := ⟨g - 1, by simp at hg; omega⟩
          have hstep := unquoteStep_multi b (tail ++ quoteBody fuel rest) hb'
          have hd := hdec (quoteBody fuel rest)
          simp only [List.cons_append] at hd hg ⊢
          rw [hd] at hstep
          rw [unquote, hstep]
          have hdrop2 : List.drop (DecodeRune (b :: t)).2 (b :: (tail ++ quoteBody fuel rest))
              = quoteBody fuel rest := by
            rw [← hlen]
            show List.drop (b :: tail).length ((b :: tail) ++ quoteBody fuel rest) = _
            simp
          simp only [hdrop2]
          simp only [List.length_cons, List.length_append] at hg
          simp only [ih rest g' hv (by omega), henc]
          rw [hsplit]; rfl

theorem scanString_safe (b : Nat) (X : List Nat) (h1 : 0x20 ≤ b) (h2 : b ≠ 34) (h3 : b ≠ 92) :
    scanString StrState.plain (b :: X) =
      (scanString StrState.plain X).map (fun r => (b :: r.1, r.2)) := by
  have h4 : ¬ b < 0x20 := by omega
  simp only [scanString, h2, h3, h4, if_false]

theorem scanString_high (bs X : List Nat) (h : ∀ x ∈ bs, 0x80 ≤ x) :
    scanString StrState.plain (bs ++ X) =
      (scanString StrState.plain X).map (fun r => (bs ++ r.1, r.2)) := by
  induction bs with
  | nil => simp
  | cons b bs ih =>
    have hb := h b (List.mem_cons_self _ _)
    rw [List.cons_append, scanString_safe b _ (by omega) (by omega) (by omega),
      ih (fun x hx => h x (List.mem_cons_of_mem _ hx))]
    simp [Option.map_map, Function.comp_def]

theorem scanString_unicode (h1 h2 h3 h4 : Nat) (X : List Nat)
    (e1 : isHex h1 = true) (e2 : isHex h2 = true) (e3 : isHex h3 = true) (e4 : isHex h4 = true) :
    scanString StrState.plain ([92, 117, h1, h2, h3, h4] ++ X) =
      (scanString StrState.plain X).map (fun r => ([92, 117, h1, h2, h3, h4] ++ r.1, r.2)) := by
  simp [scanString, e1, e2, e3, e4, Option.map_map, Function.comp_def]

theorem scanString_escape (b : Nat) (X : List Nat) (hb : b < 0x80) :
    scanString StrState.plain (escapeByte b ++ X) =
      (scanString StrState.plain X).map (fun r => (escapeByte b ++ r.1, r.2)) := by
  unfold escapeByte
  by_cases c1 : b = 0x5C ∨ b = 0x22
  · rw [if_pos c1]
    rcases c1 with rfl | rfl <;> simp [scanString, Option.map_map, Function.comp_def]
  rw [if_neg c1]
  by_cases c2 : b = 8
  · rw [if_pos c2]; simp [scanString, Option.map_map, Function.comp_def]
  rw [if_neg c2]
  by_cases c3 : b = 12
  · rw [if_pos c3]; simp [scanString, Option.map_map, Function.comp_def]
  rw [if_neg c3]
  by_cases c4 : b = 10
  · rw [if_pos c4]; simp [scanString, Option.map_map, Function.comp_def]
  rw [if_neg c4]
  by_cases c5 : b = 13
  · rw [if_pos c5]; simp [scanString, Option.map_map, Function.comp_def]
  rw [if_neg c5]
  by_cases c6 : b = 9
  · rw [if_pos c6]; simp [scanString, Option.map_map, Function.comp_def]
  rw [if_neg c6]
  exact scanString_unicode 48 48 _ _ X (by decide) (by decide)
    (hexDigit_spec (b / 16) (by omega)).1 (hexDigit_spec (b % 16) (by omega)).1

/-- The scanner reads the text that `appendString` writes up to the closing
quote, for every string. -/
theorem scanString_quoteBody (fuel : Nat) : ∀ (s : GoString) (rest : List Nat),
    scanString StrState.plain (quoteBody fuel s ++ 34 :: rest) = some (quoteBody fuel s, rest) := by
  induction fuel with
  | zero =>
    intro s rest
    cases s <;> simp [quoteBody, scanString]
  | succ fuel ih =>
    intro s rest
    cases s with
    | nil => simp [quoteBody, scanString]
    | cons b t =>
      rw [quoteBody]
      by_cases hb : b < 0x80
      · rw [if_pos hb]
        by_cases hs : htmlSafe b = true
        · rw [if_pos hs]
          simp only [htmlSafe, Bool.and_eq_true, decide_eq_true_eq, bne_iff_ne, ne_eq] at hs
          obtain ⟨⟨⟨⟨⟨⟨h1, h2⟩, h3⟩, h4⟩, h5⟩, h6⟩, h7⟩ := hs
          rw [List.singleton_append, List.cons_append, scanString_safe b _ h1 h3 h7, ih]
          rfl
        · rw [if_neg hs, List.append_assoc, scanString_escape b _ hb, ih]
          rfl
      · rw [if_neg hb]
        have hb' : 0x80 ≤ b := by omega
        simp only [DecodeRune_take]
        by_cases he : (DecodeRune (b :: t)).1 = RuneError ∧ (DecodeRune (b :: t)).2 = 1
        · rw [if_pos he, List.append_assoc,
            scanString_unicode 102 102 102 100 _ (by decide) (by decide) (by decide) (by decide),
            ih]
          rfl
        rw [if_neg he]
        obtain ⟨tail, rest', hsplit, hlen, hhigh, henc, hge, hdec⟩ := DecodeRune_spec b t hb' he
        by_cases hsep : (DecodeRune (b :: t)).1 = 0x2028 ∨ (DecodeRune (b :: t)).1 = 0x2029
        · rw [if_pos hsep, List.append_assoc,
            scanString_unicode 50 48 50 _ _ (by decide) (by decide) (by decide)
              (hexDigit_spec _ (Nat.mod_lt _ (by decide))).1, ih]
          rfl
        · rw [if_neg hsep]
          have htake : (b :: t).take (DecodeRune (b :: t)).2 = b :: tail := by
            rw [← hlen, hsplit]; simp
          rw [htake, List.append_assoc, scanString_high (b :: tail) _ hhigh, ih]
          rfl

theorem lexStep_quote (s : GoString) (rest : List Nat) (hv : validUTF8 s = true) :
    lexStep (quote s ++ rest) = some (some (Token.str s), rest) := by
  have h1 : quote s ++ rest = 34 :: (quoteBody s.length s ++ 34 :: rest) := by
    simp [quote]
  rw [h1]
  simp only [lexStep]
  rw [scanString_quoteBody]
  simp [isSpace, unquote_quoteBody s.length s _ hv (le_refl _)]

/-! ## Tokens of the encoding of a store -/

theorem lex_nil (g : Nat) : lex g [] = some [] := by
  cases g <;> rfl

theorem Lexes_nil : Lexes [] [] := by
  intro rest f hf
  exact ⟨f, hf, by simp⟩

theorem Lexes_step (chunk : List Nat) (tok : Option Token) (X : List Nat) (t : List Token)
    (hne : chunk ≠ [])
    (hstep : ∀ Y, lexStep (chunk ++ Y) = some (tok, Y)) (hX : Lexes X t) :
    Lexes (chunk ++ X) (tok.toList ++ t) := by
  intro rest f hf
  obtain ⟨c, cs, rfl⟩ := List.exists_cons_of_ne_nil hne
  obtain ⟨f', rfl⟩ : ∃ f', f = f' + 1 := ⟨f - 1, by simp at hf; omega⟩
  obtain ⟨g, hg, hlex⟩ := hX rest f' (by simp at hf ⊢; omega)
  refine ⟨g, hg, ?_⟩
  have h := hstep (X ++ rest)
  simp only [List.append_assoc, List.cons_append] at h ⊢
  rw [lex, h]
  cases tok with
  | none => simpa using hlex
  | some tk =>
    simp only [hlex, Option.map_map, Option.toList, List.singleton_append, List.cons_append,
      List.nil_append]
    rfl

theorem Lexes_space (c : Nat) (X : List Nat) (t : List Token) (hc : isSpace c = true)
    (hX : Lexes X t) : Lexes (c :: X) t := by
  have := Lexes_step [c] none X t (by simp) (fun Y => by simp [lexStep, hc]) hX
  simpa using this

theorem Lexes_lbrace (X : List Nat) (t : List Token) (hX : Lexes X t) :
    Lexes (123 :: X) (Token.lbrace :: t) := by
  have := Lexes_step [123] (some Token.lbrace) X t (by simp) (fun Y => by simp [lexStep, isSpace]) hX
  simpa using this

theorem Lexes_rbrace (X : List Nat) (t : List Token) (hX : Lexes X t) :
    Lexes (125 :: X) (Token.rbrace :: t) := by
  have := Lexes_step [125] (some Token.rbrace) X t (by simp) (fun Y => by simp [lexStep, isSpace]) hX
  simpa using this

theorem Lexes_lbrack (X : List Nat) (t : List Token) (hX : Lexes X t) :
    Lexes (91 :: X) (Token.lbrack :: t) := by
  have := Lexes_step [91] (some Token.lbrack) X t (by simp) (fun Y => by simp [lexStep, isSpace]) hX
  simpa using this

theorem Lexes_rbrack (X : List Nat) (t : List Token) (hX : Lexes X t) :
    Lexes (93 :: X) (Token.rbrack :: t) := by
  have := Lexes_step [93] (some Token.rbrack) X t (by simp) (fun Y => by simp [lexStep, isSpace]) hX
  simpa using this

theorem Lexes_colon (X : List Nat) (t : List Token) (hX : Lexes X t) :
    Lexes (58 :: X) (Token.colon :: t) := by
  have := Lexes_step [58] (some Token.colon) X t (by simp) (fun Y => by simp [lexStep, isSpace]) hX
  simpa using this

theorem Lexes_comma (X : List Nat) (t : List Token) (hX : Lexes X t) :
    Lexes (44 :: X) (Token.comma :: t) := by
  have := Lexes_step [44] (some Token.comma) X t (by simp) (fun Y => by simp [lexStep, isSpace]) hX
  simpa using this

theorem Lexes_true (X : List Nat) (t : List Token) (hX : Lexes X t) :
    Lexes (116 :: 114 :: 117 :: 101 :: X) (Token.tru :: t) := by
  have := Lexes_step [116, 114, 117, 101] (some Token.tru) X t (by simp)
    (fun Y => by simp [lexStep, isSpace, isDigit]) hX
  simpa using this

theorem Lexes_false (X : List Nat) (t : List Token) (hX : Lexes X t) :
    Lexes (102 :: 97 :: 108 :: 115 :: 101 :: X) (Token.fls :: t) := by
  have := Lexes_step [102, 97, 108, 115, 101] (some Token.fls) X t (by simp)
    (fun Y => by simp [lexStep, isSpace, isDigit]) hX
  simpa using this

theorem Lexes_quote (s : GoString) (X : List Nat) (t : List Token) (hv : validUTF8 s = true)
    (hX : Lexes X t) : Lexes (quote s ++ X) (Token.str s :: t) := by
  have := Lexes_step (quote s) (some (Token.str s)) X t (by simp [quote])
    (fun Y => lexStep_quote s Y hv) hX
  simpa using this

theorem lex_of_Lexes (doc : List Nat) (toks : List Token) (h : Lexes doc toks) :
    lex doc.length doc = some toks := by
  obtain ⟨g, _, hl⟩ := h [] doc.length (by simp)
  simpa [lex_nil] using hl

theorem encodeDevice_eq (d : Device) :
    encodeDevice d =
      ([123, 10, 32, 32, 32, 32, 32, 32] ++ quote (lit "id") ++ [58, 32]) ++ quote d.ID ++
      ([44, 10, 32, 32, 32, 32, 32, 32] ++ quote (lit "name") ++ [58, 32]) ++ quote d.Name ++
      ([44, 10, 32, 32, 32, 32, 32, 32] ++ quote (lit "mac") ++ [58, 32]) ++ quote d.MAC ++
      ([44, 10, 32, 32, 32, 32, 32, 32] ++ quote (lit "ip") ++ [58, 32]) ++ quote d.IP ++
      ([44, 10, 32, 32, 32, 32, 32, 32] ++ quote (lit "online") ++ [58, 32]) ++ (if d.Online then [116, 114, 117, 101] else [102, 97, 108, 115, 101]) ++
      ([44, 10, 32, 32, 32, 32, 32, 32] ++ quote (lit "last_seen") ++ [58, 32]) ++ quote d.LastSeen ++
      [10, 32, 32, 32, 32, 125] := by
  unfold encodeDevice
  rw [show lit "\x7b\n      \"id\": " = [123, 10, 32, 32, 32, 32, 32, 32] ++ quote (lit "id") ++ [58, 32] by decide,
    show lit ",\n      \"name\": " = [44, 10, 32, 32, 32, 32, 32, 32] ++ quote (lit "name") ++ [58, 32] by decide,
    show lit ",\n      \"mac\": " = [44, 10, 32, 32, 32, 32, 32, 32] ++ quote (lit "mac") ++ [58, 32] by decide,
    show lit ",\n      \"ip\": " = [44, 10, 32, 32, 32, 32, 32, 32] ++ quote (lit "ip") ++ [58, 32] by decide,
    show lit ",\n      \"online\": " = [44, 10, 32, 32, 32, 32, 32, 32] ++ quote (lit "online") ++ [58, 32] by decide,
    show lit ",\n      \"last_seen\": " = [44, 10, 32, 32, 32, 32, 32, 32] ++ quote (lit "last_seen") ++ [58, 32] by decide,
    show lit "\n    \x7d" = [10, 32, 32, 32, 32, 125] by decide,
    show lit "true" = [116, 114, 117, 101] by decide,
    show lit "false" = [102, 97, 108, 115, 101] by decide]

theorem Lexes_device (d : Device) (X : List Nat) (t : List Token) (hv : d.textValid = true)
    (hX : Lexes X t) : Lexes (encodeDevice d ++ X) (deviceTokens d ++ t) := by
  simp only [Device.textValid, Bool.and_eq_true] at hv
  obtain ⟨⟨⟨⟨h1, h2⟩, h3⟩, h4⟩, h5⟩ := hv
  rw [encodeDevice_eq]
  cases hO : d.Online <;>
  · simp only [deviceTokens, hO, if_true, if_false, List.append_assoc, List.cons_append,
      List.nil_append, Bool.false_eq_true]
    repeat (first
      | exact hX
      | apply Lexes_lbrace
      | apply Lexes_rbrace
      | apply Lexes_colon
      | apply Lexes_comma
      | apply Lexes_true
      | apply Lexes_false
      | apply Lexes_space _ _ _ (by decide)
      | apply Lexes_quote _ _ _ (by decide)
      | apply Lexes_quote _ _ _ h1
      | apply Lexes_quote _ _ _ h2
      | apply Lexes_quote _ _ _ h3
      | apply Lexes_quote _ _ _ h4
      | apply Lexes_quote _ _ _ h5)

theorem Lexes_more (ds : List Device) (X : List Nat) (t : List Token)
    (hv : ∀ d ∈ ds, d.textValid = true) (hX : Lexes X t) :
    Lexes (encodeMore ds ++ X) (moreTokens ds ++ t) := by
  induction ds with
  | nil => simpa [encodeMore, moreTokens] using hX
  | cons d ds ih =>
    have hd := hv d (List.mem_cons_self _ _)
    have hds := ih (fun x hx => hv x (List.mem_cons_of_mem _ hx))
    rw [encodeMore, show lit ",\n    " = [44, 10, 32, 32, 32, 32] by decide]
    simp only [moreTokens, List.append_assoc, List.cons_append, List.nil_append]
    apply Lexes_comma
    repeat apply Lexes_space _ _ _ (by decide)
    exact Lexes_device d _ _ hd hds

theorem Lexes_devices (ds : List Device) (X : List Nat) (t : List Token)
    (hv : ∀ d ∈ ds, d.textValid = true) (hX : Lexes X t) :
    Lexes (encodeDevices ds ++ X) (devicesTokens ds ++ t) := by
  cases ds with
  | nil =>
    rw [encodeDevices, show lit "[]" = [91, 93] by decide]
    simp only [devicesTokens, List.cons_append, List.nil_append]
    exact Lexes_lbrack _ _ (Lexes_rbrack _ _ hX)
  | cons d ds =>
    have hd := hv d (List.mem_cons_self _ _)
    rw [encodeDevices, show lit "[\n    " = [91, 10, 32, 32, 32, 32] by decide,
      show lit "\n  ]" = [10, 32, 32, 93] by decide]
    simp only [devicesTokens, List.append_assoc, List.cons_append, List.nil_append]
    apply Lexes_lbrack
    repeat apply Lexes_space _ _ _ (by decide)
    apply Lexes_device d _ _ hd
    apply Lexes_more ds _ _ (fun x hx => hv x (List.mem_cons_of_mem _ hx))
    repeat apply Lexes_space _ _ _ (by decide)
    exact Lexes_rbrack _ _ hX

/-- The tokens of the indented encoding of a store with valid UTF-8 text. -/
theorem lex_MarshalIndent (s : Store) (hv : ∀ d ∈ s.Devices, d.textValid = true) :
    lex (MarshalIndent s).length (MarshalIndent s) = some (storeTokens s) := by
  apply lex_of_Lexes
  rw [MarshalIndent, show lit "\x7b\n  \"devices\": " =
      [123, 10, 32, 32] ++ quote (lit "devices") ++ [58, 32] by decide,
    show lit "\n\x7d" = [10, 125] by decide]
  simp only [storeTokens, List.append_assoc, List.cons_append, List.nil_append]
  apply Lexes_lbrace
  repeat apply Lexes_space _ _ _ (by decide)
  apply Lexes_quote _ _ _ (by decide)
  apply Lexes_colon
  apply Lexes_space _ _ _ (by decide)
  apply Lexes_devices s.Devices _ _ hv
  apply Lexes_space _ _ _ (by decide)
  exact Lexes_rbrace _ _ Lexes_nil

/-! ## Parsing and decoding the encoding of a store -/

theorem runParser_member_string (key v k0 : GoString) (done : List (GoString × Value))
    (st : List Frame) (rest : List Token) (ph : Phase)
    (hph : ph = Phase.beginString ∨ ph = Phase.beginStringOrEmpty) :
    runParser ⟨Frame.obj done k0 :: st, ph⟩
        (Token.str key :: Token.colon :: Token.str v :: rest) =
      runParser ⟨Frame.obj ((key, Value.string v) :: done) key :: st, Phase.endValue⟩ rest := by
  rcases hph with rfl | rfl <;> simp [runParser, step, startValue, setKey, complete]

theorem runParser_member_bool (key k0 : GoString) (b : Bool) (done : List (GoString × Value))
    (st : List Frame) (rest : List Token) :
    runParser ⟨Frame.obj done k0 :: st, Phase.beginString⟩
        (Token.str key :: Token.colon :: (if b then Token.tru else Token.fls) :: rest) =
      runParser ⟨Frame.obj ((key, Value.bool b) :: done) key :: st, Phase.endValue⟩ rest := by
  cases b <;> simp [runParser, step, startValue, setKey, complete]

theorem runParser_comma_object (k0 : GoString) (done : List (GoString × Value))
    (st : List Frame) (rest : List Token) :
    runParser ⟨Frame.obj done k0 :: st, Phase.endValue⟩ (Token.comma :: rest) =
      runParser ⟨Frame.obj done k0 :: st, Phase.beginString⟩ rest := by
  simp [runParser, step, afterComma]

theorem runParser_open_object (done : List Value) (st : List Frame) (rest : List Token)
    (ph : Phase) (hph : ph = Phase.beginValue ∨ ph = Phase.beginValueOrEmpty)
    (hdepth : st.length + 1 < maxNestingDepth) :
    runParser ⟨Frame.arr done :: st, ph⟩ (Token.lbrace :: rest) =
      runParser ⟨Frame.obj [] [] :: Frame.arr done :: st, Phase.beginStringOrEmpty⟩ rest := by
  rcases hph with rfl | rfl <;> simp [runParser, step, startValue, hdepth]

theorem runParser_close_object (k0 : GoString) (ms : List (GoString × Value))
    (done : List Value) (st : List Frame) (rest : List Token) :
    runParser ⟨Frame.obj ms k0 :: Frame.arr done :: st, Phase.endValue⟩ (Token.rbrace :: rest) =
      runParser ⟨Frame.arr (Value.object ms.reverse :: done) :: st, Phase.endValue⟩ rest := by
  simp [runParser, step, closeObject, complete]

theorem runParser_device (d : Device) (done : List Value) (st : List Frame) (rest : List Token)
    (ph : Phase) (hph : ph = Phase.beginValue ∨ ph = Phase.beginValueOrEmpty)
    (hdepth : st.length + 1 < maxNestingDepth) :
    runParser ⟨Frame.arr done :: st, ph⟩ (deviceTokens d ++ rest) =
      runParser ⟨Frame.arr (deviceValue d :: done) :: st, Phase.endValue⟩ rest := by
  simp only [deviceTokens, List.cons_append, List.nil_append]
  rw [runParser_open_object done st _ ph hph hdepth,
    runParser_member_string _ _ _ _ _ _ _ (Or.inr rfl), runParser_comma_object,
    runParser_member_string _ _ _ _ _ _ _ (Or.inl rfl), runParser_comma_object,
    runParser_member_string _ _ _ _ _ _ _ (Or.inl rfl), runParser_comma_object,
    runParser_member_string _ _ _ _ _ _ _ (Or.inl rfl), runParser_comma_object,
    runParser_member_bool, runParser_comma_object,
    runParser_member_string _ _ _ _ _ _ _ (Or.inl rfl), runParser_close_object]
  rfl

theorem runParser_more (ds : List Device) (done : List Value) (st : List Frame)
    (rest : List Token) (hdepth : st.length + 1 < maxNestingDepth) :
    runParser ⟨Frame.arr done :: st, Phase.endValue⟩ (moreTokens ds ++ rest) =
      runParser ⟨Frame.arr ((ds.map deviceValue).reverse ++ done) :: st, Phase.endValue⟩ rest := by
  induction ds generalizing done with
  | nil => simp [moreTokens]
  | cons d ds ih =>
    simp only [moreTokens, List.cons_append, List.append_assoc]
    rw [runParser]
    simp only [step, afterComma]
    rw [runParser_device d done st _ Phase.beginValue (Or.inl rfl) hdepth, ih]
    simp

/-- The scanner accepts the tokens of a store and yields its JSON value. -/
theorem parseTokens_store (s : Store) : parseTokens (storeTokens s) = some (storeValue s) := by
  unfold parseTokens storeTokens
  have h0 : runParser ⟨[], Phase.beginValue⟩
      (Token.lbrace :: Token.str (lit "devices") :: Token.colon ::
        (devicesTokens s.Devices ++ [Token.rbrace])) =
      runParser ⟨[Frame.obj [] (lit "devices")], Phase.beginValue⟩
        (devicesTokens s.Devices ++ [Token.rbrace]) := by
    simp [runParser, step, startValue, setKey, maxNestingDepth]
  rw [h0]
  cases hds : s.Devices with
  | nil =>
    simp [devicesTokens, runParser, step, startValue, maxNestingDepth, closeArray, complete,
      closeObject, storeValue, hds]
  | cons d ds =>
    simp only [devicesTokens, List.cons_append, List.append_assoc]
    rw [runParser]
    have h1 : step ⟨[Frame.obj [] (lit "devices")], Phase.beginValue⟩ Token.lbrack =
        some ⟨[Frame.arr [], Frame.obj [] (lit "devices")], Phase.beginValueOrEmpty⟩ := by
      simp [step, startValue, maxNestingDepth]
    rw [h1]
    simp only []
    rw [runParser_device d [] _ _ Phase.beginValueOrEmpty (Or.inr rfl)
        (by simp [maxNestingDepth]),
      runParser_more ds _ _ _ (by simp [maxNestingDepth])]
    simp [runParser, step, closeArray, complete, closeObject, storeValue, hds]

theorem parseJSON_MarshalIndent (s : Store) (hv : ∀ d ∈ s.Devices, d.textValid = true) :
    parseJSON (MarshalIndent s) = some (storeValue s) := by
  simp [parseJSON, lex_MarshalIndent s hv, parseTokens_store]

theorem decodeDevicePtr_deviceValue (d : Device) : decodeDevicePtr (deviceValue d) = some d := by
  have e0 : findField deviceFields (lit "id") = some 0 := by decide
  have e1 : findField deviceFields (lit "name") = some 1 := by decide
  have e2 : findField deviceFields (lit "mac") = some 2 := by decide
  have e3 : findField deviceFields (lit "ip") = some 3 := by decide
  have e4 : findField deviceFields (lit "online") = some 4 := by decide
  have e5 : findField deviceFields (lit "last_seen") = some 5 := by decide
  simp [decodeDevicePtr, deviceValue, decodeDeviceMember, e0, e1, e2, e3, e4, e5, storeString,
    storeBool, zeroDevice]

theorem derefAll_map_some (ds : List Device) : derefAll (ds.map some) = some ds := by
  induction ds with
  | nil => rfl
  | cons d ds ih => simp [derefAll, ih]

/-- Decoding the encoding of a store with valid UTF-8 text gives a slice of
non-nil pointers to its devices. -/
theorem Unmarshal_MarshalIndent (s : Store) (hv : ∀ d ∈ s.Devices, d.textValid = true) :
    Unmarshal (MarshalIndent s) = Slot.slice (s.Devices.map some) := by
  have e : findField storeFields (lit "devices") = some 0 := by decide
  simp [Unmarshal, parseJSON_MarshalIndent s hv, storeValue, decodeStoreMember, e, decodeDevices,
    decodeDevicePtr_deviceValue]

theorem readFile_written (fs : FS) (path : GoString) (data : List Nat) :
    readFile (writeFile WriteOutcome.written fs path data) path = some data := by
  simp [writeFile, readFile]

/-! ## Persistence: `NewStore` and `Save` -/

theorem foldl_decodeStoreMember_nil (ms : List (GoString × Value))
    (h : ∀ kv ∈ ms, findField storeFields kv.1 = some 0 → ∀ elems, kv.2 ≠ Value.array elems) :
    ms.foldl decodeStoreMember Slot.nilSlice = Slot.nilSlice := by
  induction ms with
  | nil => rfl
  | cons kv ms ih =>
    have hkv := h kv (List.mem_cons_self _ _)
    have hstep : decodeStoreMember Slot.nilSlice kv = Slot.nilSlice := by
      unfold decodeStoreMember
      split
      · rename_i hf
        have hne := hkv hf
        cases hv : kv.2 with
        | array elems => exact absurd hv (hne elems)
        | null => simp [decodeDevices]
        | bool b => simp [decodeDevices]
        | number => simp [decodeDevices]
        | string s => simp [decodeDevices]
        | object m => simp [decodeDevices]
      · rfl
    rw [List.foldl_cons, hstep]
    exact ih (fun x hx => h x (List.mem_cons_of_mem _ hx))

/-- C6, as stated, fails: the content
`{"devices":[{"id":"1","name":"pc","mac":"AA:BB:CC:DD:EE:FF","ip":7}]}` does
not parse as the expected shape (the ip is a number, and `json.Unmarshal`
returns an error), yet `NewStore` returns a registry holding one device. -/
theorem NewStore_keeps_partly_decoded :
    UnmarshalFails (lit "\x7b\"devices\":[\x7b\"id\":\"1\",\"name\":\"pc\",\"mac\":\"AA:BB:CC:DD:EE:FF\",\"ip\":7\x7d]\x7d") = true ∧
    NewStore [(lit "/data/devices.json",
        lit "\x7b\"devices\":[\x7b\"id\":\"1\",\"name\":\"pc\",\"mac\":\"AA:BB:CC:DD:EE:FF\",\"ip\":7\x7d]\x7d")]
      (lit "/data/devices.json") =
      some ⟨[⟨lit "1", lit "pc", lit "AA:BB:CC:DD:EE:FF", [], false, []⟩],
        lit "/data/devices.json"⟩ := by
  decide

/-- C6, amended: `NewStore` returns a registry with an empty device sequence,
and does not fail, when the file is missing, when its content is not
well-formed JSON, when the top-level value is not an object, and when no
member of the top-level object that selects the field `devices` is an
array. -/
theorem NewStore_empty (fs : FS) (path : GoString)
    (h : readFile fs path = none ∨
      ∃ data, readFile fs path = some data ∧
        (parseJSON data = none ∨
          (∃ v, parseJSON data = some v ∧ ∀ ms, v ≠ Value.object ms) ∨
          ∃ ms, parseJSON data = some (Value.object ms) ∧
            ∀ kv ∈ ms, findField storeFields kv.1 = some 0 → ∀ elems, kv.2 ≠ Value.array elems)) :
    NewStore fs path = some ⟨[], path⟩ := by
  rcases h with h | ⟨data, hr, h | ⟨v, hv, hno⟩ | ⟨ms, hv, hms⟩⟩
  · simp [NewStore, h]
  · simp [NewStore, hr, Unmarshal, h]
  · have hU : Unmarshal data = Slot.nilSlice := by
      unfold Unmarshal
      rw [hv]
      cases v with
      | object ms => exact absurd rfl (hno ms)
      | null => rfl
      | bool b => rfl
      | number => rfl
      | string s => rfl
      | array e => rfl
    simp [NewStore, hr, hU]
  · have hU : Unmarshal data = Slot.nilSlice := by
      unfold Unmarshal
      rw [hv]
      exact foldl_decodeStoreMember_nil ms hms
    simp [NewStore, hr, hU]

theorem NewStore_empty_witness :
    (readFile [(lit "/data/devices.json", lit "\x7b\"devices\":[\x7b\"id\":\"1\"")]
        (lit "/data/devices.json") = none ∨
      ∃ data, readFile [(lit "/data/devices.json", lit "\x7b\"devices\":[\x7b\"id\":\"1\"")]
          (lit "/data/devices.json") = some data ∧
        (parseJSON data = none ∨
          (∃ v, parseJSON data = some v ∧ ∀ ms, v ≠ Value.object ms) ∨
          ∃ ms, parseJSON data = some (Value.object ms) ∧
            ∀ kv ∈ ms, findField storeFields kv.1 = some 0 →
              ∀ elems, kv.2 ≠ Value.array elems)) ∧
    NewStore [(lit "/data/devices.json", lit "\x7b\"devices\":[\x7b\"id\":\"1\"")]
      (lit "/data/devices.json") = some ⟨[], lit "/data/devices.json"⟩ :=
  ⟨Or.inr ⟨_, rfl, Or.inl rfl⟩,
    NewStore_empty _ _ (Or.inr ⟨_, rfl, Or.inl rfl⟩)⟩

/-! ## Valid UTF-8: what the decoder and the formatters write -/

theorem DecodeRune_size_pos (b : Nat) (t : List Nat) : 1 ≤ (DecodeRune (b :: t)).2 := by
  by_cases hb : b < 0x80
  · simp [DecodeRune, hb]
  · cases hf : utf8First b with
    | none => simp [DecodeRune, hb, hf]
    | some p =>
      obtain ⟨sz, lo, hi⟩ := p
      simp only [DecodeRune, hb, hf, if_false]
      split_ifs <;> simp

theorem ValidString_of_fuel (f : Nat) : ∀ (s : GoString) (g : Nat),
    ValidString f s = true → s.length ≤ g → ValidString g s = true := by
  induction f with
  | zero =>
    intro s g h _
    cases s with
    | nil => cases g <;> rfl
    | cons b t => simp [ValidString] at h
  | succ f ih =>
    intro s g h hg
    cases s with
    | nil => cases g <;> rfl
    | cons b t =>
      obtain ⟨g', rfl⟩ : ∃ g', g = g' + 1 := ⟨g - 1, by simp at hg; omega⟩
      rw [ValidString] at h ⊢
      split_ifs at h ⊢ with he
      have hp := DecodeRune_size_pos b t
      apply ih _ _ h
      simp only [List.length_drop, List.length_cons] at hg ⊢
      omega

theorem validUTF8_of_ValidString (f : Nat) (s : GoString) (h : ValidString f s = true) :
    validUTF8 s = true :=
  ValidString_of_fuel f s s.length h (le_refl _)

theorem ValidString_ascii_cons (f c : Nat) (X : GoString) (hc : c < 0x80)
    (h : ValidString f X = true) : ValidString (f + 1) (c :: X) = true := by
  have hD : DecodeRune (c :: X) = (c, 1) := by simp [DecodeRune, hc]
  rw [ValidString, hD]
  have hne : ¬ (c = RuneError ∧ 1 = 1) := by simp [RuneError]; omega
  rw [if_neg hne]
  exact h

theorem validUTF8_ascii (s : GoString) (h : ∀ c ∈ s, c < 0x80) : validUTF8 s = true := by
  unfold validUTF8
  induction s with
  | nil => rfl
  | cons c s ih =>
    exact ValidString_ascii_cons _ c s (h c (List.mem_cons_self _ _))
      (ih (fun x hx => h x (List.mem_cons_of_mem _ hx)))

theorem utf8First_two (p : Nat) (h1 : 0xC2 ≤ p) (h2 : p ≤ 0xDF) :
    utf8First p = some (2, 0x80, 0xBF) := by
  unfold utf8First
  rw [if_pos ⟨h1, h2⟩]

theorem utf8First_three (p : Nat) (h1 : 0xE0 ≤ p) (h2 : p ≤ 0xEF) :
    ∃ lo hi, utf8First p = some (3, lo, hi) ∧ (p = 0xE0 → lo = 0xA0) ∧ (p ≠ 0xE0 → lo = 0x80) ∧
      (p = 0xED → hi = 0x9F) ∧ (p ≠ 0xED → hi = 0xBF) := by
  unfold utf8First
  split_ifs <;> first | omega | exact ⟨_, _, rfl, by omega, by omega, by omega, by omega⟩

theorem utf8First_four (p : Nat) (h1 : 0xF0 ≤ p) (h2 : p ≤ 0xF4) :
    ∃ lo hi, utf8First p = some (4, lo, hi) ∧ (p = 0xF0 → lo = 0x90) ∧ (p ≠ 0xF0 → lo = 0x80) ∧
      (p = 0xF4 → hi = 0x8F) ∧ (p ≠ 0xF4 → hi = 0xBF) := by
  unfold utf8First
  split_ifs <;> first | omega | exact ⟨_, _, rfl, by omega, by omega, by omega, by omega⟩

theorem ValidString_three (f p0 b1 b2 : Nat) (X : GoString)
    (h1 : 0xE0 ≤ p0) (h2 : p0 ≤ 0xEF) (h3 : 0x80 ≤ b1) (h4 : b1 ≤ 0xBF)
    (h5 : p0 = 0xE0 → 0xA0 ≤ b1) (h6 : p0 = 0xED → b1 ≤ 0x9F)
    (h7 : 0x80 ≤ b2) (h8 : b2 ≤ 0xBF) (h : ValidString f X = true) :
    ValidString (f + 1) (p0 :: b1 :: b2 :: X) = true := by
  obtain ⟨lo, hi, hf, e1, e2, e3, e4⟩ := utf8First_three p0 h1 h2
  have hD := DecodeRune_three p0 b1 b2 lo hi X (by omega) hf
  have c1 : ¬ (b1 < lo ∨ hi < b1) := by
    by_cases a : p0 = 0xE0 <;> by_cases b : p0 = 0xED <;> omega
  have c2 : ¬ (b2 < 0x80 ∨ 0xBF < b2) := by omega
  rw [if_neg c1, if_neg c2] at hD
  rw [ValidString, hD]
  simpa using h

theorem ValidString_four (f p0 b1 b2 b3 : Nat) (X : GoString)
    (h1 : 0xF0 ≤ p0) (h2 : p0 ≤ 0xF4) (h3 : 0x80 ≤ b1) (h4 : b1 ≤ 0xBF)
    (h5 : p0 = 0xF0 → 0x90 ≤ b1) (h6 : p0 = 0xF4 → b1 ≤ 0x8F)
    (h7 : 0x80 ≤ b2) (h8 : b2 ≤ 0xBF) (h9 : 0x80 ≤ b3) (h10 : b3 ≤ 0xBF)
    (h : ValidString f X = true) :
    ValidString (f + 1) (p0 :: b1 :: b2 :: b3 :: X) = true := by
  obtain ⟨lo, hi, hf, e1, e2, e3, e4⟩ := utf8First_four p0 h1 h2
  have hD := DecodeRune_four p0 b1 b2 b3 lo hi X (by omega) hf
  have c1 : ¬ (b1 < lo ∨ hi < b1) := by
    by_cases a : p0 = 0xF0 <;> by_cases b : p0 = 0xF4 <;> omega
  have c2 : ¬ (b2 < 0x80 ∨ 0xBF < b2) := by omega
  have c3 : ¬ (b3 < 0x80 ∨ 0xBF < b3) := by omega
  rw [if_neg c1, if_neg c2, if_neg c3] at hD
  rw [ValidString, hD]
  simpa using h

theorem ValidString_two (f p0 b1 : Nat) (X : GoString)
    (h1 : 0xC2 ≤ p0) (h2 : p0 ≤ 0xDF) (h3 : 0x80 ≤ b1) (h4 : b1 ≤ 0xBF)
    (h : ValidString f X = true) :
    ValidString (f + 1) (p0 :: b1 :: X) = true := by
  have hD := DecodeRune_two p0 b1 0x80 0xBF X (by omega) (utf8First_two p0 h1 h2)
  have c1 : ¬ (b1 < 0x80 ∨ 0xBF < b1) := by omega
  rw [if_neg c1] at hD
  rw [ValidString, hD]
  simpa using h

/-- The bytes `utf8.EncodeRune` writes are valid UTF-8 in front of valid
UTF-8. -/
theorem ValidString_EncodeRune (f r : Nat) (X : GoString) (h : ValidString f X = true) :
    ValidString (f + 1) (EncodeRune r ++ X) = true := by
  unfold EncodeRune
  by_cases c1 : r ≤ 0x7F
  · rw [if_pos c1]
    exact ValidString_ascii_cons f r X (by omega) h
  rw [if_neg c1]
  by_cases c2 : r ≤ 0x7FF
  · rw [if_pos c2]
    exact ValidString_two f _ _ X (by omega) (by omega) (by omega) (by omega) h
  rw [if_neg c2]
  by_cases c3 : r > 0x10FFFF ∨ (0xD800 ≤ r ∧ r ≤ 0xDFFF)
  · rw [if_pos c3]
    exact ValidString_three f 0xEF 0xBF 0xBD X (by omega) (by omega) (by omega) (by omega)
      (by omega) (by omega) (by omega) (by omega) h
  rw [if_neg c3]
  by_cases c4 : r ≤ 0xFFFF
  · rw [if_pos c4]
    exact ValidString_three f _ _ _ X (by omega) (by omega) (by omega) (by omega)
      (by omega) (by omega) (by omega) (by omega) h
  rw [if_neg c4]
  exact ValidString_four f _ _ _ _ X (by omega) (by omega) (by omega) (by omega)
    (by omega) (by omega) (by omega) (by omega) (by omega) (by omega) h

theorem EncodeRune_ascii (c : Nat) (hc : c < 0x80) : EncodeRune c = [c] := by
  simp only [EncodeRune]
  rw [if_pos (by omega)]

theorem unquoteStep_escape_out (e : Nat) (cs1 : List Nat) (r : List Nat × List Nat)
    (h : unquoteStep (92 :: e :: cs1) = some r) : ∃ x, r.1 = EncodeRune x := by
  by_cases e1 : e = 34 ∨ e = 92 ∨ e = 47 ∨ e = 39
  · simp only [unquoteStep, if_true, e1, Option.some.injEq] at h
    subst h
    exact ⟨e, (EncodeRune_ascii e (by omega)).symm⟩
  by_cases e2 : e = 98
  · subst e2
    simp [unquoteStep] at h
    subst h
    exact ⟨8, (EncodeRune_ascii 8 (by omega)).symm⟩
  by_cases e3 : e = 102
  · subst e3
    simp [unquoteStep] at h
    subst h
    exact ⟨12, (EncodeRune_ascii 12 (by omega)).symm⟩
  by_cases e4 : e = 110
  · subst e4
    simp [unquoteStep] at h
    subst h
    exact ⟨10, (EncodeRune_ascii 10 (by omega)).symm⟩
  by_cases e5 : e = 114
  · subst e5
    simp [unquoteStep] at h
    subst h
    exact ⟨13, (EncodeRune_ascii 13 (by omega)).symm⟩
  by_cases e6 : e = 116
  · subst e6
    simp [unquoteStep] at h
    subst h
    exact ⟨9, (EncodeRune_ascii 9 (by omega)).symm⟩
  by_cases e7 : e = 117
  · have e1' : ¬ (117 = 34 ∨ 117 = 92 ∨ 117 = 47 ∨ 117 = 39) := by omega
    subst e7
    simp only [unquoteStep, if_true, e1', if_false, show ¬ (117 = 98) by omega,
      show ¬ (117 = 102) by omega, show ¬ (117 = 110) by omega, show ¬ (117 = 114) by omega,
      show ¬ (117 = 116) by omega] at h
    cases hg : getu4 (92 :: 117 :: cs1) with
    | none => simp only [hg] at h; exact absurd h (by simp)
    | some rr =>
      simp only [hg] at h
      split_ifs at h <;>
        (simp only [Option.some.injEq] at h; subst h; dsimp only; exact ⟨_, rfl⟩)
  · simp only [unquoteStep, if_true, e1, e2, e3, e4, e5, e6, e7, if_false] at h
    exact absurd h (by simp)

theorem unquoteStep_out (s : List Nat) (r : List Nat × List Nat)
    (h : unquoteStep s = some r) : ∃ x, r.1 = EncodeRune x := by
  cases s with
  | nil => simp [unquoteStep] at h
  | cons c cs =>
    by_cases h1 : c = 92
    · subst h1
      cases cs with
      | nil => simp [unquoteStep] at h
      | cons e cs1 => exact unquoteStep_escape_out e cs1 r h
    by_cases h2 : c = 34 ∨ c < 0x20
    · simp only [unquoteStep, h1, h2, if_true, if_false] at h
      exact absurd h (by simp)
    by_cases h3 : c < 0x80
    · simp only [unquoteStep, h1, h2, h3, if_true, if_false, Option.some.injEq] at h
      subst h
      exact ⟨c, (EncodeRune_ascii c h3).symm⟩
    · simp only [unquoteStep, h1, h2, h3, if_false, Option.some.injEq] at h
      subst h
      exact ⟨_, rfl⟩

/-- Whatever `unquoteBytes` returns is valid UTF-8. -/
theorem unquote_valid (g : Nat) : ∀ (raw : List Nat) (s : GoString),
    unquote g raw = some s → ∃ f, ValidString f s = true := by
  induction g with
  | zero =>
    intro raw s h
    cases raw with
    | nil =>
      simp only [unquote, Option.some.injEq] at h
      subst h
      exact ⟨0, rfl⟩
    | cons c cs => simp [unquote] at h
  | succ g ih =>
    intro raw s h
    cases raw with
    | nil =>
      simp only [unquote, Option.some.injEq] at h
      subst h
      exact ⟨0, rfl⟩
    | cons c cs =>
      rw [unquote] at h
      cases hs : unquoteStep (c :: cs) with
      | none => simp [hs] at h
      | some r =>
        rw [hs] at h
        simp only [Option.map_eq_some'] at h
        obtain ⟨t, ht, rfl⟩ := h
        obtain ⟨f, hf⟩ := ih _ _ ht
        obtain ⟨x, hx⟩ := unquoteStep_out _ _ hs
        rw [hx]
        exact ⟨f + 1, ValidString_EncodeRune f x t hf⟩

theorem decimalDigits_ascii (fuel n : Nat) (acc : List Nat) (h : ∀ c ∈ acc, c < 0x80) :
    ∀ c ∈ decimalDigits fuel n acc, c < 0x80 := by
  induction fuel generalizing n acc with
  | zero => simpa [decimalDigits] using h
  | succ fuel ih =>
    have h1 : ∀ c ∈ (48 + n % 10) :: acc, c < 0x80 := by
      intro c hc
      rcases List.mem_cons.mp hc with rfl | hc
      · omega
      · exact h c hc
    unfold decimalDigits
    by_cases h0 : n / 10 = 0
    · simp only [h0, if_true]
      exact h1
    · simp only [h0, if_false]
      exact ih (n / 10) _ h1

theorem formatNat_ascii (n : Nat) : ∀ c ∈ formatNat n, c < 0x80 :=
  decimalDigits_ascii (n + 1) n [] (by simp)

theorem sprintfD_ascii (n : Int) : ∀ c ∈ sprintfD n, c < 0x80 := by
  cases n with
  | ofNat a => exact formatNat_ascii a
  | negSucc a =>
    intro c hc
    simp only [sprintfD, List.mem_cons] at hc
    rcases hc with rfl | hc
    · omega
    · exact formatNat_ascii _ c hc

theorem appendInt_ascii (x : Int) (width : Nat) : ∀ c ∈ appendInt x width, c < 0x80 := by
  intro c hc
  simp only [appendInt, List.mem_append, List.mem_replicate] at hc
  rcases hc with hc | hc | hc
  · split_ifs at hc
    · simp only [List.mem_singleton] at hc; omega
    · simp at hc
  · omega
  · exact formatNat_ascii _ c hc

theorem formatCivil_ascii (t : CivilTime) : ∀ c ∈ formatCivil t, c < 0x80 := by
  intro c hc
  simp only [formatCivil, List.mem_append, List.mem_singleton] at hc
  rcases hc with (((((((((hc | hc) | hc) | hc) | hc) | hc) | hc) | hc) | hc) | hc) | hc <;>
    first
    | exact appendInt_ascii _ _ c hc
    | omega

theorem lexStep_valid (s rest : List Nat) (t : Token)
    (h : lexStep s = some (some t, rest)) : ValidToken t := by
  cases t with
  | str u =>
    cases s with
    | nil => exact absurd h (by simp [lexStep])
    | cons c cs =>
      unfold lexStep at h
      dsimp only at h
      by_cases k0 : isSpace c = true
      · rw [if_pos k0] at h
        injection h with h
        injection h with h1 h2
        cases h1
      rw [if_neg k0] at h
      by_cases k1 : c = 123
      · rw [if_pos k1] at h
        injection h with h
        injection h with h1 h2
        injection h1 with h1
        cases h1
      rw [if_neg k1] at h
      by_cases k2 : c = 125
      · rw [if_pos k2] at h
        injection h with h
        injection h with h1 h2
        injection h1 with h1
        cases h1
      rw [if_neg k2] at h
      by_cases k3 : c = 91
      · rw [if_pos k3] at h
        injection h with h
        injection h with h1 h2
        injection h1 with h1
        cases h1
      rw [if_neg k3] at h
      by_cases k4 : c = 93
      · rw [if_pos k4] at h
        injection h with h
        injection h with h1 h2
        injection h1 with h1
        cases h1
      rw [if_neg k4] at h
      by_cases k5 : c = 58
      · rw [if_pos k5] at h
        injection h with h
        injection h with h1 h2
        injection h1 with h1
        cases h1
      rw [if_neg k5] at h
      by_cases k6 : c = 44
      · rw [if_pos k6] at h
        injection h with h
        injection h with h1 h2
        injection h1 with h1
        cases h1
      rw [if_neg k6] at h
      by_cases k7 : c = 34
      · rw [if_pos k7] at h
        cases hs : scanString StrState.plain cs with
        | none => rw [hs] at h; exact absurd h (by simp)
        | some r =>
          rw [hs] at h
          simp only [Option.map_eq_some', Prod.mk.injEq, Option.some.injEq,
            Token.str.injEq] at h
          obtain ⟨a, ha, ⟨rfl, _⟩⟩ := h
          obtain ⟨f, hf⟩ := unquote_valid _ _ _ ha
          exact validUTF8_of_ValidString f _ hf
      rw [if_neg k7] at h
      by_cases k8 : c = 45 ∨ isDigit c = true
      · rw [if_pos k8] at h
        simp only [Option.map_eq_some', Prod.mk.injEq, Option.some.injEq] at h
        obtain ⟨a, _, ⟨h, _⟩⟩ := h
        cases h
      rw [if_neg k8] at h
      split_ifs at h <;>
        (injection h with h; injection h with h1 h2; injection h1 with h1; cases h1)
  | _ => trivial

/-! ## Valid UTF-8: the values the scanner builds -/

theorem complete_valid (stack : List Frame) (v : Value)
    (hs : ∀ f ∈ stack, ValidFrame f) (hv : ValidValue v) : ValidParser (complete stack v) := by
  cases stack with
  | nil =>
    refine ⟨by simp [complete], ?_⟩
    intro w hw
    simp only [complete, Phase.endTop.injEq] at hw
    subst hw
    exact hv
  | cons fr st =>
    have hfr := hs fr (List.mem_cons_self _ _)
    have hst : ∀ f ∈ st, ValidFrame f := fun f hf => hs f (List.mem_cons_of_mem _ hf)
    cases fr with
    | arr done =>
      refine ⟨?_, by simp [complete]⟩
      intro f hf
      simp only [complete, List.mem_cons] at hf
      rcases hf with rfl | hf
      · intro x hx
        rcases List.mem_cons.mp hx with rfl | hx
        · exact hv
        · exact hfr x hx
      · exact hst f hf
    | obj done key =>
      refine ⟨?_, by simp [complete]⟩
      intro f hf
      simp only [complete, List.mem_cons] at hf
      rcases hf with rfl | hf
      · intro x hx
        rcases List.mem_cons.mp hx with rfl | hx
        · exact hv
        · exact hfr x hx
      · exact hst f hf

theorem push_valid (stack : List Frame) (fr : Frame) (ph : Phase)
    (hs : ∀ f ∈ stack, ValidFrame f) (hfr : ValidFrame fr) (hph : ∀ v, ph ≠ Phase.endTop v) :
    ValidParser ⟨fr :: stack, ph⟩ := by
  refine ⟨?_, fun v hv => absurd hv (hph v)⟩
  intro f hf
  rcases List.mem_cons.mp hf with rfl | hf
  · exact hfr
  · exact hs f hf

theorem startValue_valid (stack : List Frame) (t : Token) (q : Parser)
    (hs : ∀ f ∈ stack, ValidFrame f) (ht : ValidToken t) (h : startValue stack t = some q) :
    ValidParser q := by
  cases t with
  | str s =>
    simp only [startValue, Option.some.injEq] at h
    subst h
    exact complete_valid stack _ hs (ValidValue.string s ht)
  | num =>
    simp only [startValue, Option.some.injEq] at h
    subst h
    exact complete_valid stack _ hs ValidValue.number
  | tru =>
    simp only [startValue, Option.some.injEq] at h
    subst h
    exact complete_valid stack _ hs (ValidValue.bool true)
  | fls =>
    simp only [startValue, Option.some.injEq] at h
    subst h
    exact complete_valid stack _ hs (ValidValue.bool false)
  | nul =>
    simp only [startValue, Option.some.injEq] at h
    subst h
    exact complete_valid stack _ hs ValidValue.null
  | lbrack =>
    simp only [startValue] at h
    split_ifs at h
    simp only [Option.some.injEq] at h
    subst h
    exact push_valid stack _ _ hs (by simp [ValidFrame]) (by simp)
  | lbrace =>
    simp only [startValue] at h
    split_ifs at h
    simp only [Option.some.injEq] at h
    subst h
    exact push_valid stack _ _ hs (by simp [ValidFrame]) (by simp)
  | rbrace => simp [startValue] at h
  | rbrack => simp [startValue] at h
  | colon => simp [startValue] at h
  | comma => simp [startValue] at h

theorem closeArray_valid (stack : List Frame) (q : Parser)
    (hs : ∀ f ∈ stack, ValidFrame f) (h : closeArray stack = some q) : ValidParser q := by
  cases stack with
  | nil => simp [closeArray] at h
  | cons fr st =>
    cases fr with
    | arr done =>
      simp only [closeArray, Option.some.injEq] at h
      subst h
      refine complete_valid st _ (fun f hf => hs f (List.mem_cons_of_mem _ hf))
        (ValidValue.array _ ?_)
      intro e he
      exact hs (Frame.arr done) (List.mem_cons_self _ _) e (List.mem_reverse.mp he)
    | obj done key => simp [closeArray] at h

theorem closeObject_valid (stack : List Frame) (q : Parser)
    (hs : ∀ f ∈ stack, ValidFrame f) (h : closeObject stack = some q) : ValidParser q := by
  cases stack with
  | nil => simp [closeObject] at h
  | cons fr st =>
    cases fr with
    | arr done => simp [closeObject] at h
    | obj done key =>
      simp only [closeObject, Option.some.injEq] at h
      subst h
      refine complete_valid st _ (fun f hf => hs f (List.mem_cons_of_mem _ hf))
        (ValidValue.object _ ?_)
      intro e he
      exact hs (Frame.obj done key) (List.mem_cons_self _ _) e (List.mem_reverse.mp he)

theorem setKey_valid (stack : List Frame) (k : GoString) (q : Parser)
    (hs : ∀ f ∈ stack, ValidFrame f) (h : setKey stack k = some q) : ValidParser q := by
  cases stack with
  | nil => simp [setKey] at h
  | cons fr st =>
    cases fr with
    | arr done => simp [setKey] at h
    | obj done key =>
      simp only [setKey, Option.some.injEq] at h
      subst h
      exact push_valid st _ _ (fun f hf => hs f (List.mem_cons_of_mem _ hf))
        (hs (Frame.obj done key) (List.mem_cons_self _ _)) (by simp)

theorem afterComma_valid (stack : List Frame) (q : Parser)
    (hs : ∀ f ∈ stack, ValidFrame f) (h : afterComma stack = some q) : ValidParser q := by
  cases stack with
  | nil => simp [afterComma] at h
  | cons fr st =>
    cases fr with
    | arr done =>
      simp only [afterComma, Option.some.injEq] at h
      subst h
      exact ⟨hs, by simp⟩
    | obj done key =>
      simp only [afterComma, Option.some.injEq] at h
      subst h
      exact ⟨hs, by simp⟩

theorem step_valid (p q : Parser) (t : Token) (hp : ValidParser p) (ht : ValidToken t)
    (h : step p t = some q) : ValidParser q := by
  obtain ⟨stack, phase⟩ := p
  have hs : ∀ f ∈ stack, ValidFrame f := hp.1
  cases phase with
  | beginValue =>
    simp only [step] at h
    exact startValue_valid stack t q hs ht h
  | beginValueOrEmpty =>
    cases t <;> simp only [step] at h <;>
      first
      | exact closeArray_valid stack q hs h
      | exact startValue_valid stack _ q hs ht h
  | beginStringOrEmpty =>
    cases t <;> simp only [step] at h <;>
      first
      | exact closeObject_valid stack q hs h
      | exact setKey_valid stack _ q hs h
      | exact absurd h (by simp)
  | beginString =>
    cases t <;> simp only [step] at h <;>
      first
      | exact setKey_valid stack _ q hs h
      | exact absurd h (by simp)
  | afterKey =>
    cases t <;> simp only [step] at h <;>
      first
      | (simp only [Option.some.injEq] at h; subst h; exact ⟨hs, by simp⟩)
      | exact absurd h (by simp)
  | endValue =>
    cases t <;> simp only [step] at h <;>
      first
      | exact afterComma_valid stack q hs h
      | exact closeArray_valid stack q hs h
      | exact closeObject_valid stack q hs h
      | exact absurd h (by simp)
  | endTop v =>
    cases t <;> simp only [step] at h <;> exact absurd h (by simp)

theorem runParser_valid (ts : List Token) : ∀ (p q : Parser), ValidParser p →
    (∀ t ∈ ts, ValidToken t) → runParser p ts = some q → ValidParser q := by
  induction ts with
  | nil =>
    intro p q hp _ h
    simp only [runParser, Option.some.injEq] at h
    subst h
    exact hp
  | cons t ts ih =>
    intro p q hp ht h
    rw [runParser] at h
    cases hs : step p t with
    | none => rw [hs] at h; exact absurd h (by simp)
    | some r =>
      rw [hs] at h
      exact ih r q (step_valid p r t hp (ht t (List.mem_cons_self _ _)) hs)
        (fun x hx => ht x (List.mem_cons_of_mem _ hx)) h

theorem lex_valid (f : Nat) : ∀ (s : List Nat) (ts : List Token),
    lex f s = some ts → ∀ t ∈ ts, ValidToken t := by
  induction f with
  | zero =>
    intro s ts h
    cases s with
    | nil =>
      simp only [lex, Option.some.injEq] at h
      subst h
      simp
    | cons c cs => simp [lex] at h
  | succ f ih =>
    intro s ts h
    cases s with
    | nil =>
      simp only [lex, Option.some.injEq] at h
      subst h
      simp
    | cons c cs =>
      rw [lex] at h
      cases hs : lexStep (c :: cs) with
      | none => rw [hs] at h; exact absurd h (by simp)
      | some r =>
        obtain ⟨tok, rest⟩ := r
        rw [hs] at h
        cases tok with
        | none => exact ih rest ts h
        | some t =>
          simp only [Option.map_eq_some'] at h
          obtain ⟨ts', hts, rfl⟩ := h
          intro x hx
          rcases List.mem_cons.mp hx with rfl | hx
          · exact lexStep_valid _ _ _ hs
          · exact ih rest ts' hts x hx

theorem ValidParser_start : ValidParser ⟨[], Phase.beginValue⟩ :=
  ⟨by simp, by simp⟩

/-- Every string in the JSON value of an input is valid UTF-8. -/
theorem parseJSON_valid (data : List Nat) (v : Value) (h : parseJSON data = some v) :
    ValidValue v := by
  unfold parseJSON at h
  cases hl : lex data.length data with
  | none => rw [hl] at h; exact absurd h (by simp)
  | some ts =>
    rw [hl] at h
    simp only [parseTokens] at h
    cases hr : runParser ⟨[], Phase.beginValue⟩ ts with
    | none => rw [hr] at h; exact absurd h (by simp)
    | some q =>
      rw [hr] at h
      have hq := runParser_valid ts _ q ValidParser_start (lex_valid _ _ _ hl) hr
      obtain ⟨stack, phase⟩ := q
      cases stack with
      | nil =>
        cases phase with
        | endTop w =>
          simp only [Option.some.injEq] at h
          subst h
          exact hq.2 w rfl
        | _ => exact absurd h (by simp)
      | cons fr st => exact absurd h (by simp)

theorem readValue_valid (f : Nat) : ∀ (p : Parser) (input : List Nat) (v : Value),
    ValidParser p → readValue f p input = some v → ValidValue v := by
  induction f with
  | zero =>
    intro p input v _ h
    simp [readValue] at h
  | succ f ih =>
    intro p input v hp h
    rw [readValue] at h
    cases hs : lexStep input with
    | none => rw [hs] at h; exact absurd h (by simp)
    | some r =>
      obtain ⟨tok, rest⟩ := r
      rw [hs] at h
      cases tok with
      | none => exact ih p rest v hp h
      | some t =>
        simp only at h
        cases hst : step p t with
        | none => rw [hst] at h; exact absurd h (by simp)
        | some q =>
          rw [hst] at h
          have hq := step_valid p q t hp (lexStep_valid _ _ _ hs) hst
          simp only at h
          cases hfin : finished q with
          | some w =>
            rw [hfin] at h
            simp only [Option.some.injEq] at h
            subst h
            obtain ⟨stack, phase⟩ := q
            cases phase with
            | endTop u =>
              simp only [finished, Option.some.injEq] at hfin
              subst hfin
              exact hq.2 _ rfl
            | _ => exact absurd hfin (by simp [finished])
          | none =>
            rw [hfin] at h
            exact ih q rest v hq h

/-! ## Valid UTF-8: every store the program can hold -/

theorem textValid_iff (d : Device) :
    d.textValid = true ↔ validUTF8 d.ID = true ∧ validUTF8 d.Name = true ∧
      validUTF8 d.MAC = true ∧ validUTF8 d.IP = true ∧ validUTF8 d.LastSeen = true := by
  simp [Device.textValid, and_assoc]

theorem storeString_valid (cur : GoString) (v : Value) (hc : validUTF8 cur = true)
    (hv : ValidValue v) : validUTF8 (storeString cur v) = true := by
  cases hv with
  | string s h => exact h
  | null => exact hc
  | bool b => exact hc
  | number => exact hc
  | array e h => exact hc
  | object m h => exact hc

theorem decodeDeviceMember_valid (d : Device) (kv : GoString × Value)
    (hd : d.textValid = true) (hv : ValidValue kv.2) :
    (decodeDeviceMember d kv).textValid = true := by
  rw [textValid_iff] at hd
  obtain ⟨h1, h2, h3, h4, h5⟩ := hd
  unfold decodeDeviceMember
  split <;> rw [textValid_iff] <;>
    first
    | exact ⟨storeString_valid _ _ h1 hv, h2, h3, h4, h5⟩
    | exact ⟨h1, storeString_valid _ _ h2 hv, h3, h4, h5⟩
    | exact ⟨h1, h2, storeString_valid _ _ h3 hv, h4, h5⟩
    | exact ⟨h1, h2, h3, storeString_valid _ _ h4 hv, h5⟩
    | exact ⟨h1, h2, h3, h4, storeString_valid _ _ h5 hv⟩
    | exact ⟨h1, h2, h3, h4, h5⟩

theorem foldl_decodeDeviceMember_valid (ms : List (GoString × Value)) :
    ∀ d : Device, d.textValid = true → (∀ kv ∈ ms, ValidValue kv.2) →
      (ms.foldl decodeDeviceMember d).textValid = true := by
  induction ms with
  | nil => intro d hd _; exact hd
  | cons kv ms ih =>
    intro d hd hv
    rw [List.foldl_cons]
    exact ih _ (decodeDeviceMember_valid d kv hd (hv kv (List.mem_cons_self _ _)))
      (fun x hx => hv x (List.mem_cons_of_mem _ hx))

theorem zeroDevice_valid : zeroDevice.textValid = true := by decide

theorem decodeDevicePtr_valid (v : Value) (d : Device) (hv : ValidValue v)
    (h : decodeDevicePtr v = some d) : d.textValid = true := by
  cases hv with
  | object ms hms =>
    simp only [decodeDevicePtr, Option.some.injEq] at h
    subst h
    exact foldl_decodeDeviceMember_valid ms _ zeroDevice_valid hms
  | null => simp [decodeDevicePtr] at h
  | bool b =>
    simp only [decodeDevicePtr, Option.some.injEq] at h
    subst h; exact zeroDevice_valid
  | number =>
    simp only [decodeDevicePtr, Option.some.injEq] at h
    subst h; exact zeroDevice_valid
  | string s hs =>
    simp only [decodeDevicePtr, Option.some.injEq] at h
    subst h; exact zeroDevice_valid
  | array e he =>
    simp only [decodeDevicePtr, Option.some.injEq] at h
    subst h; exact zeroDevice_valid

theorem decodeDevices_valid (cur : Slot) (v : Value) (hc : ValidSlot cur) (hv : ValidValue v) :
    ValidSlot (decodeDevices cur v) := by
  cases hv with
  | array elems he =>
    have key : decodeDevices cur (Value.array elems) = Slot.reused ∨
        decodeDevices cur (Value.array elems) = Slot.slice (elems.map decodeDevicePtr) := by
      cases cur with
      | reused => left; simp [decodeDevices]
      | nilSlice => right; cases elems <;> simp [decodeDevices]
      | slice ptrs => cases ptrs <;> cases elems <;> simp [decodeDevices]
    rcases key with k | k <;> rw [k]
    · trivial
    · intro d hd
      simp only [List.mem_map] at hd
      obtain ⟨e, hem, hed⟩ := hd
      exact decodeDevicePtr_valid e d (he e hem) hed
  | null => cases cur <;> simp [decodeDevices, ValidSlot]
  | bool b => exact hc
  | number => exact hc
  | string s hs => exact hc
  | object m hm => exact hc

theorem foldl_decodeStoreMember_valid (ms : List (GoString × Value)) :
    ∀ cur : Slot, ValidSlot cur → (∀ kv ∈ ms, ValidValue kv.2) →
      ValidSlot (ms.foldl decodeStoreMember cur) := by
  induction ms with
  | nil => intro cur hc _; exact hc
  | cons kv ms ih =>
    intro cur hc hv
    rw [List.foldl_cons]
    refine ih _ ?_ (fun x hx => hv x (List.mem_cons_of_mem _ hx))
    unfold decodeStoreMember
    split
    · exact decodeDevices_valid cur kv.2 hc (hv kv (List.mem_cons_self _ _))
    · exact hc

theorem Unmarshal_valid (data : List Nat) : ValidSlot (Unmarshal data) := by
  unfold Unmarshal
  cases hp : parseJSON data with
  | none => trivial
  | some v =>
    have hv := parseJSON_valid data v hp
    cases hv with
    | object ms hms => exact foldl_decodeStoreMember_valid ms _ trivial hms
    | null => trivial
    | bool b => trivial
    | number => trivial
    | string s hs => trivial
    | array e he => trivial

theorem derefAll_mem (ptrs : List (Option Device)) : ∀ ds : List Device,
    derefAll ptrs = some ds → ∀ d ∈ ds, some d ∈ ptrs := by
  induction ptrs with
  | nil =>
    intro ds h d hd
    simp only [derefAll, Option.some.injEq] at h
    subst h
    simp at hd
  | cons p ptrs ih =>
    intro ds h d hd
    cases p with
    | none => simp [derefAll] at h
    | some x =>
      simp only [derefAll, Option.map_eq_some'] at h
      obtain ⟨ds', hds', rfl⟩ := h
      rcases List.mem_cons.mp hd with rfl | hd
      · exact List.mem_cons_self _ _
      · exact List.mem_cons_of_mem _ (ih ds' hds' d hd)

theorem NewStore_of_slot (slot : Slot) (path : GoString) (s : Store)
    (h : (match slot with
      | Slot.nilSlice => some (⟨[], path⟩ : Store)
      | Slot.slice ptrs => (derefAll ptrs).map (fun ds => (⟨ds, path⟩ : Store))
      | Slot.reused => none) = some s)
    (hslot : ValidSlot slot) : ∀ d ∈ s.Devices, d.textValid = true := by
  cases slot with
  | nilSlice =>
    simp only [Option.some.injEq] at h
    subst h
    simp
  | slice ptrs =>
    simp only [Option.map_eq_some'] at h
    obtain ⟨ds, hds, rfl⟩ := h
    intro d hd
    exact hslot d (derefAll_mem ptrs ds hds d hd)
  | reused => simp at h

/-- Every device that `NewStore` loads holds valid UTF-8 only. -/
theorem NewStore_valid (fs : FS) (path : GoString) (s : Store)
    (h : NewStore fs path = some s) : ∀ d ∈ s.Devices, d.textValid = true := by
  unfold NewStore at h
  cases hr : readFile fs path with
  | none =>
    rw [hr] at h
    exact NewStore_of_slot Slot.nilSlice path s h trivial
  | some data =>
    rw [hr] at h
    exact NewStore_of_slot (Unmarshal data) path s h (Unmarshal_valid data)

theorem decodeRequest_valid (body : List Nat) (d : Device) (h : decodeRequest body = some d) :
    d.textValid = true := by
  unfold decodeRequest at h
  cases hr : readValue body.length ⟨[], Phase.beginValue⟩ body with
  | none => rw [hr] at h; exact absurd h (by simp)
  | some v =>
    rw [hr] at h
    have hv := readValue_valid _ _ _ v ValidParser_start hr
    cases hv with
    | object ms hms =>
      simp only at h
      split_ifs at h
      simp only [Option.some.injEq] at h
      subst h
      exact foldl_decodeDeviceMember_valid ms _ zeroDevice_valid hms
    | null =>
      simp only [Option.some.injEq] at h
      subst h
      exact zeroDevice_valid
    | bool b => exact absurd h (by simp)
    | number => exact absurd h (by simp)
    | string s hs => exact absurd h (by simp)
    | array e he => exact absurd h (by simp)

theorem Add_valid (s : Store) (now : Int) (d : Device)
    (hs : ∀ x ∈ s.Devices, x.textValid = true) (hd : d.textValid = true) :
    ∀ x ∈ (s.Add now d).1.Devices, x.textValid = true := by
  intro x hx
  simp only [Store.Add, List.mem_append, List.mem_singleton] at hx
  rcases hx with hx | rfl
  · exact hs x hx
  · rw [textValid_iff] at hd ⊢
    exact ⟨validUTF8_ascii _ (sprintfD_ascii now), hd.2⟩

theorem handlePost_valid (s : Store) (now : Int) (w : WriteOutcome) (fs : FS)
    (body : List Nat) (hs : ∀ x ∈ s.Devices, x.textValid = true) :
    ∀ x ∈ (handlePost s now w fs body).1.Devices, x.textValid = true := by
  unfold handlePost
  cases hd : decodeRequest body with
  | none => exact hs
  | some d =>
    simp only
    split_ifs
    · exact hs
    · exact Add_valid s now d hs (decodeRequest_valid body d hd)

theorem deleteLoop_subset (all : List Device) (id : GoString) (rest : List Device) (i : Nat) :
    ∀ x ∈ (Store.deleteLoop all id i rest).2, x ∈ all := by
  induction rest generalizing i with
  | nil => intro x hx; exact hx
  | cons d rest ih =>
    intro x hx
    unfold Store.deleteLoop at hx
    split_ifs at hx
    · simp only [List.mem_append] at hx
      rcases hx with hx | hx
      · exact List.mem_of_mem_take hx
      · exact List.mem_of_mem_drop hx
    · exact ih (i + 1) x hx

theorem Delete_valid (s : Store) (id : GoString) (hs : ∀ x ∈ s.Devices, x.textValid = true) :
    ∀ x ∈ (s.Delete id).2.Devices, x.textValid = true := by
  intro x hx
  exact hs x (deleteLoop_subset s.Devices id s.Devices 0 x hx)

theorem handleDevicePath_valid (s : Store) (w : WriteOutcome) (fs : FS) (method id : GoString)
    (hs : ∀ x ∈ s.Devices, x.textValid = true) :
    ∀ x ∈ (handleDevicePath s w fs method id).1.Devices, x.textValid = true := by
  unfold handleDevicePath
  dsimp only
  split_ifs <;> first | exact hs | exact Delete_valid s id hs

theorem pollDevice_valid (env : PollEnv) (zone : Int → CivilTime)
    (hz : ∀ t, env.format t = formatCivil (zone t)) (k : Nat) (d : Device)
    (hd : d.textValid = true) : (pollDevice env k d).textValid = true := by
  rw [textValid_iff] at hd
  unfold pollDevice
  dsimp only
  split_ifs <;> rw [textValid_iff]
  · exact hd
  · refine ⟨hd.1, hd.2.1, hd.2.2.1, hd.2.2.2.1, ?_⟩
    show validUTF8 (env.format (env.clock k)) = true
    rw [hz]
    exact validUTF8_ascii _ (formatCivil_ascii _)
  · exact hd

theorem pollDevices_valid (env : PollEnv) (zone : Int → CivilTime)
    (hz : ∀ t, env.format t = formatCivil (zone t)) (ds : List Device) :
    ∀ k, (∀ x ∈ ds, x.textValid = true) → ∀ x ∈ pollDevices env k ds, x.textValid = true := by
  induction ds with
  | nil => intro k _ x hx; simp [pollDevices] at hx
  | cons d ds ih =>
    intro k hs x hx
    simp only [pollDevices, List.mem_cons] at hx
    rcases hx with rfl | hx
    · exact pollDevice_valid env zone hz k d (hs d (List.mem_cons_self _ _))
    · exact ih (k + 1) (fun y hy => hs y (List.mem_cons_of_mem _ hy)) x hx

/-- Every device of a store the program can hold has valid UTF-8 in id, name,
mac, ip and last_seen. -/
theorem Reachable_valid (s : Store) (h : Reachable s) : ∀ d ∈ s.Devices, d.textValid = true := by
  induction h with
  | load fs path s h => exact NewStore_valid fs path s h
  | post s now w fs body _ ih => exact handlePost_valid s now w fs body ih
  | devicePath s w fs method id _ ih => exact handleDevicePath_valid s w fs method id ih
  | poll s env w fs zone hz _ ih =>
    exact pollDevices_valid env zone hz s.Devices 0 ih

/-! ## Round trip of `Save` and `NewStore` -/

theorem roundtrip_of_textValid (s : Store) (fs : FS)
    (hv : ∀ d ∈ s.Devices, d.textValid = true) :
    NewStore (s.Save WriteOutcome.written fs) s.path = some s := by
  simp [NewStore, Store.Save, readFile_written, Unmarshal_MarshalIndent s hv, derefAll_map_some]

/-- C7: for every store the program can hold (the one `main` loads, changed by
any sequence of requests and poll cycles) and every file system, when the
write of `Save` succeeds, `NewStore` on the same path returns the same store:
the same devices in the same order, each with the same id, name, mac, ip,
online and last_seen. -/
theorem save_load_roundtrip (s : Store) (fs : FS) (h : Reachable s) :
    NewStore (s.Save WriteOutcome.written fs) s.path = some s :=
  roundtrip_of_textValid s fs (Reachable_valid s h)

set_option maxRecDepth 100000 in
theorem save_load_roundtrip_witness :
    Reachable
      (handlePost
        (handlePost ⟨[], lit "/data/devices.json"⟩ 1730000000000000001 WriteOutcome.written []
          (lit "\x7b\"name\":\"pc\",\"mac\":\"AA:BB:CC:DD:EE:FF\",\"ip\":\"10.0.0.2\"\x7d")).1
        1730000000000000002 WriteOutcome.written []
        (lit "\x7b\"name\":\"nas <1>\",\"mac\":\"01-23-45-67-89-ab\"\x7d")).1 ∧
    (handlePost
        (handlePost ⟨[], lit "/data/devices.json"⟩ 1730000000000000001 WriteOutcome.written []
          (lit "\x7b\"name\":\"pc\",\"mac\":\"AA:BB:CC:DD:EE:FF\",\"ip\":\"10.0.0.2\"\x7d")).1
        1730000000000000002 WriteOutcome.written []
        (lit "\x7b\"name\":\"nas <1>\",\"mac\":\"01-23-45-67-89-ab\"\x7d")).1 =
      ⟨[⟨lit "1730000000000000001", lit "pc", lit "AA:BB:CC:DD:EE:FF", lit "10.0.0.2", false, []⟩,
        ⟨lit "1730000000000000002", lit "nas <1>", lit "01-23-45-67-89-ab", [], false, []⟩],
        lit "/data/devices.json"⟩ ∧
    NewStore
      ((handlePost
        (handlePost ⟨[], lit "/data/devices.json"⟩ 1730000000000000001 WriteOutcome.written []
          (lit "\x7b\"name\":\"pc\",\"mac\":\"AA:BB:CC:DD:EE:FF\",\"ip\":\"10.0.0.2\"\x7d")).1
        1730000000000000002 WriteOutcome.written []
        (lit "\x7b\"name\":\"nas <1>\",\"mac\":\"01-23-45-67-89-ab\"\x7d")).1.Save
        WriteOutcome.written [])
      (handlePost
        (handlePost ⟨[], lit "/data/devices.json"⟩ 1730000000000000001 WriteOutcome.written []
          (lit "\x7b\"name\":\"pc\",\"mac\":\"AA:BB:CC:DD:EE:FF\",\"ip\":\"10.0.0.2\"\x7d")).1
        1730000000000000002 WriteOutcome.written []
        (lit "\x7b\"name\":\"nas <1>\",\"mac\":\"01-23-45-67-89-ab\"\x7d")).1.path =
      some (handlePost
        (handlePost ⟨[], lit "/data/devices.json"⟩ 1730000000000000001 WriteOutcome.written []
          (lit "\x7b\"name\":\"pc\",\"mac\":\"AA:BB:CC:DD:EE:FF\",\"ip\":\"10.0.0.2\"\x7d")).1
        1730000000000000002 WriteOutcome.written []
        (lit "\x7b\"name\":\"nas <1>\",\"mac\":\"01-23-45-67-89-ab\"\x7d")).1 :=
  ⟨Reachable.post _ _ _ _ _
      (Reachable.post _ _ _ _ _ (Reachable.load [] (lit "/data/devices.json") _ rfl)),
    by decide,
    save_load_roundtrip _ _
      (Reachable.post _ _ _ _ _
        (Reachable.post _ _ _ _ _ (Reachable.load [] (lit "/data/devices.json") _ rfl)))⟩

end WolTool
